import Mathlib

/-!
# openqa-serial: the serial-terminal transcript parser

A shallow embedding of `cmd/openqa-serial/main.go` (`cleanToken`, `returnCode`,
`parse`, `cleanFragment`) together with the library functions they call.

Modelling conventions

* A Go `string` is a sequence of bytes: `Str := List Nat`, one number per byte.
  `len`, indexing and slicing are therefore byte operations, as in Go.
* `strings.TrimSpace` removes the UTF-8 encodings of the Unicode white-space code
  points, `regexp` and `strings.Index` scan bytes (the pattern and the needles are ASCII).
* Go's `int` is 64 bits wide (`strconv.IntSize = 64`).
* `bufio.Scanner` is represented by what it yields: the lines returned by successive
  `Scan` calls and the value of `Err()` once `Scan` has returned false.
-/

namespace OpenqaSerial

/-- A Go string: its bytes. -/
abbrev Str := List Nat

/-- Bytes of an ASCII literal. -/
def ascii (s : String) : Str := s.toList.map Char.toNat

/-! ## Package `strings` -/

namespace strings

/-- Go `strings.HasPrefix`. -/
def HasPrefix (s pre : Str) : Bool := pre.isPrefixOf s

/-- Go `strings.Index`: the offset of the first occurrence of `sub` in `s`
(`none` stands for `-1`). -/
def Index : Str → Str → Option Nat
  | [], sub => if sub = [] then some 0 else none
  | c :: s, sub =>
    if sub.isPrefixOf (c :: s) then some 0 else (Index s sub).map (· + 1)

/-- Go `strings.Contains`. -/
def Contains (s sub : Str) : Bool := (Index s sub).isSome

/-- Go `strings.Trim` for a cutset of ASCII bytes: leading and trailing bytes of the
cutset are removed. -/
def Trim (s cutset : Str) : Str :=
  ((s.dropWhile fun b => cutset.contains b).reverse.dropWhile fun b => cutset.contains b).reverse

/-- The table `asciiSpace` of package `strings`: tab, newline, vertical tab, form feed,
carriage return, space. -/
def asciiSpace (b : Nat) : Bool :=
  b == 9 || b == 10 || b == 11 || b == 12 || b == 13 || b == 32

/-- UTF-8 encodings of the code points for which `unicode.IsSpace` holds:
the six ASCII ones, U+0085, U+00A0, U+1680, U+2000..U+200A, U+2028, U+2029, U+202F,
U+205F, U+3000. -/
def spaceSeqs : List Str :=
  [[9], [10], [11], [12], [13], [32],
   [0xC2, 0x85], [0xC2, 0xA0], [0xE1, 0x9A, 0x80],
   [0xE2, 0x80, 0x80], [0xE2, 0x80, 0x81], [0xE2, 0x80, 0x82], [0xE2, 0x80, 0x83],
   [0xE2, 0x80, 0x84], [0xE2, 0x80, 0x85], [0xE2, 0x80, 0x86], [0xE2, 0x80, 0x87],
   [0xE2, 0x80, 0x88], [0xE2, 0x80, 0x89], [0xE2, 0x80, 0x8A],
   [0xE2, 0x80, 0xA8], [0xE2, 0x80, 0xA9], [0xE2, 0x80, 0xAF],
   [0xE2, 0x81, 0x9F], [0xE3, 0x80, 0x80]]

/-- Width in bytes of the white-space code point encoded at the head of `s`
(0 when the head of `s` is not white space). -/
def spaceWidth (s : Str) : Nat :=
  match spaceSeqs.find? fun w => w.isPrefixOf s with
  | some w => w.length
  | none => 0

/-- Width in bytes of the white-space code point encoded at the end of `s`
(0 when `s` does not end in white space). -/
def spaceWidthLast (s : Str) : Nat :=
  match spaceSeqs.find? fun w => w.reverse.isPrefixOf s.reverse with
  | some w => w.length
  | none => 0

/-- Removal of leading white space, one code point per round; `fuel` bounds the rounds. -/
def trimLeftSpace : Nat → Str → Str
  | 0, s => s
  | fuel + 1, s =>
    if spaceWidth s = 0 then s else trimLeftSpace fuel (s.drop (spaceWidth s))

/-- Removal of trailing white space, one code point per round; `fuel` bounds the rounds. -/
def trimRightSpace : Nat → Str → Str
  | 0, s => s
  | fuel + 1, s =>
    if spaceWidthLast s = 0 then s
    else trimRightSpace fuel (s.take (s.length - spaceWidthLast s))

/-- Go `strings.TrimSpace`: all leading and trailing white space removed, as defined by
Unicode. Every round removes at least one byte, so `length` rounds are enough. -/
def TrimSpace (s : Str) : Str :=
  let t := trimLeftSpace s.length s
  trimRightSpace t.length t

end strings

/-! ## Package `strconv` -/

/-- Errors that `parse` can return. -/
inductive Error where
  /-- Message `invalid return code string`. -/
  | invalidReturnCodeString
  /-- Message `invalid return code prefix`. -/
  | invalidReturnCodePrefix
  /-- Message `invalid return code suffix`. -/
  | invalidReturnCodeSuffix
  /-- Value `strconv.ErrSyntax`. -/
  | atoiSyntax
  /-- Value `strconv.ErrRange`. -/
  | atoiRange
  /-- An error reported by the scanner (read failure, line too long). -/
  | scanner
  deriving DecidableEq

namespace strconv

/-- The loop of `strconv.ParseUint(s, 10, 64)`: `n` is the value read so far, as a
`uint64`. `cutoff = maxUint64/10 + 1`, `maxVal = 2^64 - 1`. -/
def parseUintLoop : Str → Nat → Except Error Nat
  | [], n => .ok n
  | c :: s, n =>
    if 48 ≤ c ∧ c ≤ 57 then
      let d := c - 48
      if n ≥ (2 ^ 64 - 1) / 10 + 1 then .error .atoiRange
      else
        let n10 := (n * 10) % 2 ^ 64
        let n1 := (n10 + d) % 2 ^ 64
        if n1 < n10 ∨ n1 > 2 ^ 64 - 1 then .error .atoiRange
        else parseUintLoop s n1
    else .error .atoiSyntax

/-- Go `strconv.ParseUint(s, 10, 64)`. -/
def ParseUint (s : Str) : Except Error Nat :=
  if s = [] then .error .atoiSyntax else parseUintLoop s 0

/-- Go `strconv.ParseInt(s, 10, 0)` with `IntSize = 64`. -/
def ParseInt (s : Str) : Except Error Int :=
  match s with
  | [] => .error .atoiSyntax
  | c :: r =>
    let neg := c == 45
    let body := if c == 43 ∨ c == 45 then r else c :: r
    match ParseUint body with
    | .error .atoiRange =>
      -- `un = maxUint64`, which is beyond the cutoff for either sign
      .error .atoiRange
    | .error e => .error e
    | .ok un =>
      if !neg ∧ un ≥ 2 ^ 63 then .error .atoiRange
      else if neg ∧ un > 2 ^ 63 then .error .atoiRange
      else .ok (if neg then -(un : Int) else (un : Int))

/-- Go `strconv.Atoi`: `ParseInt(s, 10, 0)` converted to `int` (the fast path for short
inputs returns the same results). -/
def Atoi (s : Str) : Except Error Int := ParseInt s

end strconv

/-! ## The regular expression `re_sr` -/

/-- Bytes of `echo `. -/
def echoSp : Str := [101, 99, 104, 111, 32]

/-- Bytes of `-$?-`. -/
def exitSubst : Str := [45, 36, 63, 45]

/-- The character class `[a-zA-Z0-9~_]`. -/
def isTokenByte (b : Nat) : Bool :=
  (97 ≤ b && b ≤ 122) || (65 ≤ b && b ≤ 90) || (48 ≤ b && b ≤ 57) || b == 126 || b == 95

/-- The expression `;[ ]+echo [a-zA-Z0-9~_]{5}-\$\?-.*` anchored at the head of `s`:
the length of its match, if it matches there. `[ ]+` can only stop at the `e` of `echo`,
so it takes the whole run of spaces; the greedy `.*` runs to the next newline or the
end of the text. -/
def reSrMatchLen (s : Str) : Option Nat :=
  match s with
  | [] => none
  | c :: r =>
    let k := (r.takeWhile (· == 32)).length
    let r1 := r.drop k
    let tok := (r1.drop 5).take 5
    if c == 59 && decide (1 ≤ k) && echoSp.isPrefixOf r1 && tok.length == 5
        && tok.all isTokenByte && exitSubst.isPrefixOf (r1.drop 10) then
      some (1 + k + 5 + 5 + 4 + ((r1.drop 14).takeWhile (· != 10)).length)
    else none

/-- Go `re_sr.FindStringIndex`: start and end offset of the leftmost match. -/
def FindStringIndex : Str → Option (Nat × Nat)
  | [] => none
  | c :: s =>
    match reSrMatchLen (c :: s) with
    | some n => some (0, n)
    | none => (FindStringIndex s).map fun loc => (loc.1 + 1, loc.2 + 1)

/-! ## `main.go` -/

/-- The record `Entry` of `main.go`. -/
structure Entry where
  Command : Str
  Output : Str
  token : Str
  Dumb : Bool
  ReturnCode : Int
  deriving DecidableEq

/-- The zero value `Entry{}`. -/
def Entry.zero : Entry := ⟨[], [], [], false, 0⟩

/-- Function `cleanToken`: clean leading `;` and trim the token. -/
def cleanToken (token : Str) : Str :=
  let token := token.dropWhile (· == 59)
  let token := strings.TrimSpace token
  let token := if strings.HasPrefix token echoSp then token.drop 5 else token
  strings.TrimSpace token

/-- Function `returnCode`. -/
def returnCode (str : Str) : Except Error Int :=
  let n := str.length
  if n < 3 then .error .invalidReturnCodeString
  else if str.head? ≠ some 45 then .error .invalidReturnCodePrefix
  else if str.getLast? ≠ some 45 then .error .invalidReturnCodeSuffix
  else strconv.Atoi ((str.take (n - 1)).drop 1)

/-- What `bufio.NewScanner(reader)` yields: the lines returned by the successive calls
of `Scan`, and the value of `Err()` after the last one. -/
structure Reader where
  lines : List Str
  err : Option Error

/-- A reader that delivers `lines` and then ends cleanly. -/
def Reader.ofLines (lines : List Str) : Reader := ⟨lines, none⟩

/-- The variables of the loop in `parse`: the entries appended so far and the entry
in progress. -/
structure State where
  entries : List Entry
  entry : Entry
  deriving DecidableEq

/-- State on entry to the loop. -/
def State.init : State := ⟨[], Entry.zero⟩

/-- Bytes of `_EOT`. -/
def eotL : Str := [95, 69, 79, 84]

/-- Bytes of `EOT_`. -/
def eotR : Str := [69, 79, 84, 95]

/-- One iteration of the loop of `parse` on the scanned text `text`; an error is the
early `return entries, err`. -/
def step (st : State) (text : Str) : Except Error State :=
  let entries := st.entries
  let entry := st.entry
  let line := strings.Trim text [10]
  if entry.token ≠ [] ∧ !strings.HasPrefix line [62] ∧ !strings.Contains line eotL
      ∧ !strings.Contains line eotR then
    match strings.Index line entry.token with
    | some i =>
      let rem := strings.TrimSpace (line.drop (i + entry.token.length))
      match returnCode rem with
      | .error err => .error err
      | .ok rc => .ok ⟨entries ++ [{ entry with ReturnCode := rc }], Entry.zero⟩
    | none =>
      if entry.Output = [] then .ok ⟨entries, { entry with Output := line }⟩
      else .ok ⟨entries, { entry with Output := entry.Output ++ [10] ++ line }⟩
  else
    match FindStringIndex line with
    | some loc =>
      let m := (line.take (loc.2 - 4)).drop loc.1
      .ok ⟨entries, { entry with
        Command := strings.TrimSpace (line.take loc.1), token := cleanToken m, Dumb := false }⟩
    | none => .ok ⟨entries ++ [{ entry with Command := line, Dumb := true }], Entry.zero⟩

/-- The loop of `parse` over the scanned lines: the state in which it stops, and the
error of the early return if there was one. -/
def run : List Str → State → State × Option Error
  | [], st => (st, none)
  | text :: rest, st =>
    match step st text with
    | .error err => (st, some err)
    | .ok st1 => run rest st1

/-- Function `parse`. -/
def parse (reader : Reader) : List Entry × Option Error :=
  match run reader.lines State.init with
  | (st, some err) => (st.entries, some err)
  | (st, none) => (st.entries, reader.err)

/-- Function `cleanFragment`. -/
def cleanFragment (url : Str) : Str :=
  match strings.Index url [35] with
  | some i => if i > 0 then url.take i else url
  | none => url

/-! ## Notions used in the statements -/

/-- The signature stands at the head of `s`: `;`, one or more spaces, `echo `, five
bytes of `[a-zA-Z0-9~_]`, `-$?-`, then anything. -/
def SigHere (s : Str) : Prop :=
  ∃ (k : Nat) (tok post : Str), 1 ≤ k ∧ tok.length = 5 ∧ (∀ b ∈ tok, isTokenByte b = true) ∧
    s = 59 :: (List.replicate k 32 ++ (echoSp ++ (tok ++ (exitSubst ++ post))))

/-- The signature stands in `line` at offset `p`. -/
def SignatureAt (line : Str) (p : Nat) : Prop := SigHere (line.drop p)

/-- The passthrough entry made of a line. -/
def passthrough (line : Str) : Entry := ⟨line, [], [], true, 0⟩

/-- A decimal digit `0`..`9`. -/
def isDigit (b : Nat) : Prop := 48 ≤ b ∧ b ≤ 57

instance (b : Nat) : Decidable (isDigit b) := by unfold isDigit; infer_instance

/-- The number that a string of decimal digits denotes. -/
def decimalValue (ds : Str) : Nat := ds.foldl (fun a d => 10 * a + (d - 48)) 0

/-- The decimal rendering of `n`, without leading zeros. -/
def decimal (n : Nat) : Str := (Nat.toDigits 10 n).map Char.toNat

/-- An ASCII byte that is not white space. -/
def isPlain (b : Nat) : Prop := b < 128 ∧ strings.asciiSpace b = false

instance (b : Nat) : Decidable (isPlain b) := by unfold isPlain; infer_instance

/-- A line on which the token search is skipped: it begins with `>` or contains `_EOT`
or `EOT_`. -/
def isSkipLine (line : Str) : Prop :=
  line.head? = some 62 ∨ eotL <:+: line ∨ eotR <:+: line

instance (l : Str) : Decidable (isSkipLine l) := by unfold isSkipLine; infer_instance

/-- The text `-<digits>-`: a hyphen, one or more decimal digits, a hyphen. -/
def DigitsShape (s : Str) : Prop :=
  ∃ ds : Str, ds ≠ [] ∧ (∀ d ∈ ds, isDigit d) ∧ s = [45] ++ ds ++ [45]

/-- The text `-<sign><digits>-`: a hyphen, an optional sign `+` or `-`, one or more
decimal digits, a hyphen. -/
def SignedShape (s : Str) : Prop :=
  ∃ sign ds : Str, (sign = [] ∨ sign = [43] ∨ sign = [45]) ∧ ds ≠ [] ∧ (∀ d ∈ ds, isDigit d) ∧
    s = [45] ++ sign ++ ds ++ [45]

/-- The command line `c; echo T-$?-` with `k` spaces after the `;`. -/
def sigLine (c : Str) (k : Nat) (T : Str) : Str :=
  c ++ 59 :: (List.replicate k 32 ++ (echoSp ++ (T ++ exitSubst)))

/-- The line `T-n-` that reports exit status `n` for the token `T`. -/
def closeLine (T : Str) (n : Nat) : Str := T ++ 45 :: (decimal n ++ [45])

/-- The output of the entry in progress after one more output line (lines 113 to 117 of
`main.go`). -/
def appendOutput (output line : Str) : Str :=
  if output = [] then line else output ++ [10] ++ line

/-- What holds of every state that the loop of `parse` reaches: an entry in progress without
token is the zero value, the entry in progress is never marked `Dumb`, and every entry
appended with `Dumb = false` carries a token. -/
def State.Sound (st : State) : Prop :=
  (st.entry.token = [] → st.entry = Entry.zero) ∧ st.entry.Dumb = false ∧
    ∀ e ∈ st.entries, e.Dumb = false → e.token ≠ []

/-- The iteration on `text` in state `st` closes the entry in progress as `e`: a sentinel is
open, the line is not a skip line, the sentinel occurs in the line, the text after its first
occurrence decodes to a return code, and `e` is the entry in progress with that return code
and nothing else changed. -/
def ClosedBy (st : State) (text : Str) (e : Entry) : Prop :=
  ∃ (i : Nat) (rc : Int), st.entry.token ≠ [] ∧ ¬ isSkipLine (strings.Trim text [10]) ∧
    strings.Index (strings.Trim text [10]) st.entry.token = some i ∧
    returnCode (strings.TrimSpace ((strings.Trim text [10]).drop (i + st.entry.token.length)))
      = .ok rc ∧
    e = { st.entry with ReturnCode := rc }

/-- The command line `cmd` installs the sentinel `tok`: the line holds a match of the
regular expression and `tok` is `cleanToken` of the match without its last four bytes. -/
def InstalledBy (cmd tok : Str) : Prop :=
  ∃ loc : Nat × Nat, FindStringIndex (strings.Trim cmd [10]) = some loc ∧
    tok = cleanToken (((strings.Trim cmd [10]).take (loc.2 - 4)).drop loc.1)

/-! ## Lemmas -/

open List

/-! ### Lists -/

theorem dropWhile_eq_self_of_forall {α : Type} (p : α → Bool) (l : List α)
    (h : ∀ x ∈ l, p x = false) : l.dropWhile p = l := by
  cases l with
  | nil => rfl
  | cons a t => simp [List.dropWhile_cons, h a (List.mem_cons_self a t)]

theorem takeWhile_replicate_append (k : Nat) (a : Nat) (t : Str)
    (h : t.head? ≠ some a) :
    (List.replicate k a ++ t).takeWhile (· == a) = List.replicate k a := by
  induction k with
  | zero =>
    cases t with
    | nil => rfl
    | cons b t =>
      have : b ≠ a := by simpa using h
      simp [List.takeWhile_cons, this]
  | succ k ih => simp [List.replicate_succ, List.takeWhile_cons, ih]

theorem takeWhile_eq_replicate (r : Str) :
    r.takeWhile (· == 32) = List.replicate (r.takeWhile (· == 32)).length 32 := by
  induction r with
  | nil => rfl
  | cons a t ih =>
    by_cases h : a = 32
    · subst h
      simp only [List.takeWhile_cons, beq_self_eq_true, if_true, List.length_cons,
        List.replicate_succ]
      exact congrArg _ ih
    · simp [List.takeWhile_cons, h]

theorem drop_takeWhile_length (r : Str) (p : Nat → Bool) :
    r.drop (r.takeWhile p).length = r.dropWhile p := by
  induction r with
  | nil => rfl
  | cons a t ih =>
    by_cases h : p a = true
    · simp [List.takeWhile_cons, List.dropWhile_cons, h, ih]
    · simp [List.takeWhile_cons, List.dropWhile_cons, h]

theorem dropWhile_replicate_append (j a : Nat) (s : Str) (h : s.head? ≠ some a) :
    (List.replicate j a ++ s).dropWhile (· == a) = s := by
  induction j with
  | zero =>
    cases s with
    | nil => rfl
    | cons b t =>
      have : b ≠ a := by simpa using h
      simp [List.dropWhile_cons, this]
  | succ j ih => simp [List.replicate_succ, List.dropWhile_cons, ih]

theorem beq_false_of_ne {x a : Nat} (h : a ≠ x) : (x == a) = false := by
  simpa using Ne.symm h

/-! ### Package `strings`: `Trim`, `Index`, `Contains` -/

theorem Trim_newline_of_not_mem (s : Str) (h : 10 ∉ s) : strings.Trim s [10] = s := by
  unfold strings.Trim
  have h1 : ∀ x ∈ s, (fun b => [10].contains b) x = false := by
    intro x hx
    have : x ≠ 10 := by rintro rfl; exact h hx
    simp [this]
  rw [dropWhile_eq_self_of_forall _ s h1]
  rw [dropWhile_eq_self_of_forall _ s.reverse (by
    intro x hx; exact h1 x (List.mem_reverse.mp hx))]
  simp

theorem Index_isSome_iff (s sub : Str) : (strings.Index s sub).isSome = true ↔ sub <:+: s := by
  induction s with
  | nil =>
    unfold strings.Index
    by_cases h : sub = []
    · simp [h]
    · simp [h]
  | cons c s ih =>
    unfold strings.Index
    by_cases h : sub.isPrefixOf (c :: s) = true
    · simp only [h, if_true, Option.isSome_some, true_iff]
      exact (List.isPrefixOf_iff_prefix.mp h).isInfix
    · have hp : ¬ sub <+: c :: s := fun hp => h (List.isPrefixOf_iff_prefix.mpr hp)
      simp [h, ih, List.infix_cons_iff, hp]

theorem Contains_iff (s sub : Str) : strings.Contains s sub = true ↔ sub <:+: s :=
  Index_isSome_iff s sub

theorem Index_eq_none_iff (s sub : Str) : strings.Index s sub = none ↔ ¬ sub <:+: s := by
  rw [← Index_isSome_iff]
  cases strings.Index s sub <;> simp

theorem Index_of_isPrefix (s sub : Str) (h : sub <+: s) : strings.Index s sub = some 0 := by
  cases s with
  | nil =>
    have : sub = [] := List.prefix_nil.mp h
    simp [strings.Index, this]
  | cons c s =>
    unfold strings.Index
    simp [List.isPrefixOf_iff_prefix.mpr h]

theorem infix_of_infix_append (sub a rest : Str) (z : Nat) (sub' : Str) (hs : sub = sub' ++ [z])
    (hz : z ∉ rest) (h : sub <:+: a ++ rest) : sub <:+: a := by
  obtain ⟨p, q, hpq⟩ := h
  rcases List.append_eq_append_iff.mp hpq with ⟨a', h1, h2⟩ | ⟨c', h1, h2⟩
  · -- `p ++ sub` ends inside `a`
    exact ⟨p, a', h1.symm⟩
  · -- `p ++ sub` reaches into `rest`
    rcases List.eq_nil_or_concat c' with rfl | ⟨c'', y, rfl⟩
    · exact ⟨p, [], by simpa using h1⟩
    · exfalso
      have : z = y := by
        have h3 : p ++ sub' ++ [z] = (a ++ c'') ++ [y] := by
          rw [hs] at h1
          simpa [List.append_assoc] using h1
        exact (List.append_inj' h3 rfl).2 |> List.singleton_inj.mp
      apply hz
      rw [h2, this]
      simp

theorem not_isSkipLine_iff (line : Str) :
    ((!strings.HasPrefix line [62]) = true ∧ (!strings.Contains line eotL) = true
      ∧ (!strings.Contains line eotR) = true) ↔ ¬ isSkipLine line := by
  have hp : strings.HasPrefix line [62] = true ↔ line.head? = some 62 := by
    cases line with
    | nil => simp [strings.HasPrefix]
    | cons c t =>
      simp only [strings.HasPrefix, List.isPrefixOf, Bool.and_true, beq_iff_eq, List.head?_cons,
        Option.some.injEq]
      exact eq_comm
  unfold isSkipLine
  rw [← Contains_iff, ← Contains_iff, ← hp]
  simp only [Bool.not_eq_true', not_or, Bool.not_eq_true]

/-! ### Package `strings`: `TrimSpace` -/

theorem isPlain_ne {a : Nat} (h : isPlain a) :
    a ≠ 9 ∧ a ≠ 10 ∧ a ≠ 11 ∧ a ≠ 12 ∧ a ≠ 13 ∧ a ≠ 32 ∧ a < 128 := by
  obtain ⟨h1, h2⟩ := h
  simp only [strings.asciiSpace, Bool.or_eq_false_iff, beq_eq_false_iff_ne, ne_eq] at h2
  obtain ⟨⟨⟨⟨⟨a1, a2⟩, a3⟩, a4⟩, a5⟩, a6⟩ := h2
  exact ⟨a1, a2, a3, a4, a5, a6, h1⟩

theorem isPlain_of_isTokenByte {b : Nat} (h : isTokenByte b = true) : isPlain b := by
  simp only [isTokenByte, Bool.or_eq_true, Bool.and_eq_true, decide_eq_true_eq,
    beq_iff_eq] at h
  refine ⟨by omega, ?_⟩
  simp only [strings.asciiSpace, Bool.or_eq_false_iff, beq_eq_false_iff_ne, ne_eq]
  omega

theorem spaceWidth_cons_plain (a : Nat) (t : Str) (h : isPlain a) :
    strings.spaceWidth (a :: t) = 0 := by
  obtain ⟨a1, a2, a3, a4, a5, a6, a7⟩ := isPlain_ne h
  have b1 : a ≠ 194 := by omega
  have b2 : a ≠ 225 := by omega
  have b3 : a ≠ 226 := by omega
  have b4 : a ≠ 227 := by omega
  simp [strings.spaceWidth, strings.spaceSeqs, List.find?, List.isPrefixOf,
    beq_false_of_ne a1, beq_false_of_ne a2, beq_false_of_ne a3, beq_false_of_ne a4,
    beq_false_of_ne a5, beq_false_of_ne a6, beq_false_of_ne b1, beq_false_of_ne b2,
    beq_false_of_ne b3, beq_false_of_ne b4]

theorem spaceWidthLast_concat_plain (z : Nat) (t : Str) (h : isPlain z) :
    strings.spaceWidthLast (t ++ [z]) = 0 := by
  obtain ⟨a1, a2, a3, a4, a5, a6, a7⟩ := isPlain_ne h
  have b1 : ∀ x, 128 ≤ x → (x == z) = false := by
    intro x hx; simp; omega
  simp [strings.spaceWidthLast, strings.spaceSeqs, List.find?, List.isPrefixOf,
    beq_false_of_ne a1, beq_false_of_ne a2, beq_false_of_ne a3, beq_false_of_ne a4,
    beq_false_of_ne a5, beq_false_of_ne a6, b1]

theorem spaceWidth_cons_space (t : Str) : strings.spaceWidth (32 :: t) = 1 := by
  simp [strings.spaceWidth, strings.spaceSeqs, List.find?, List.isPrefixOf]

theorem trimLeftSpace_cons_plain (fuel a : Nat) (t : Str) (h : isPlain a) :
    strings.trimLeftSpace fuel (a :: t) = a :: t := by
  cases fuel with
  | zero => rfl
  | succ f => simp [strings.trimLeftSpace, spaceWidth_cons_plain a t h]

theorem trimRightSpace_concat_plain (fuel z : Nat) (t : Str) (h : isPlain z) :
    strings.trimRightSpace fuel (t ++ [z]) = t ++ [z] := by
  cases fuel with
  | zero => rfl
  | succ f => simp [strings.trimRightSpace, spaceWidthLast_concat_plain z t h]

theorem trimLeftSpace_spaces (k fuel : Nat) (s : Str) :
    strings.trimLeftSpace (k + fuel) (List.replicate k 32 ++ s) = strings.trimLeftSpace fuel s := by
  induction k with
  | zero => simp
  | succ k ih =>
    have : k + 1 + fuel = (k + fuel) + 1 := by omega
    rw [this, List.replicate_succ, List.cons_append, strings.trimLeftSpace,
      spaceWidth_cons_space]
    simpa using ih

theorem TrimSpace_of_plain_ends (s t t' : Str) (a z : Nat) (h1 : s = a :: t)
    (h2 : s = t' ++ [z]) (ha : isPlain a) (hz : isPlain z) : strings.TrimSpace s = s := by
  unfold strings.TrimSpace
  have e1 : strings.trimLeftSpace s.length s = s := by
    rw [h1]; exact trimLeftSpace_cons_plain _ a t ha
  simp only [e1]
  rw [h2]; exact trimRightSpace_concat_plain _ z t' hz

theorem TrimSpace_spaces_append (k : Nat) (s t t' : Str) (a z : Nat) (h1 : s = a :: t)
    (h2 : s = t' ++ [z]) (ha : isPlain a) (hz : isPlain z) :
    strings.TrimSpace (List.replicate k 32 ++ s) = s := by
  unfold strings.TrimSpace
  have e1 : strings.trimLeftSpace (List.replicate k 32 ++ s).length (List.replicate k 32 ++ s)
      = s := by
    rw [List.length_append, List.length_replicate, trimLeftSpace_spaces, h1]
    exact trimLeftSpace_cons_plain _ a t ha
  simp only [e1]
  rw [h2]; exact trimRightSpace_concat_plain _ z t' hz

/-! ### Package `strconv` and decimal renderings -/

theorem parseUintLoop_digits (ds : Str) (n : Nat) (hd : ∀ d ∈ ds, isDigit d)
    (hb : ds.foldl (fun a d => 10 * a + (d - 48)) n < 2 ^ 64) :
    strconv.parseUintLoop ds n = .ok (ds.foldl (fun a d => 10 * a + (d - 48)) n) := by
  induction ds generalizing n with
  | nil => simp [strconv.parseUintLoop]
  | cons c s ih =>
    have hc : isDigit c := hd c (List.mem_cons_self _ _)
    have hmono : ∀ (l : Str) (m : Nat), m ≤ l.foldl (fun a d => 10 * a + (d - 48)) m := by
      intro l
      induction l with
      | nil => intro m; simp
      | cons x t iht =>
        intro m
        simp only [List.foldl_cons]
        exact le_trans (by omega) (iht (10 * m + (x - 48)))
    simp only [List.foldl_cons] at hb ⊢
    have h1 : 10 * n + (c - 48) < 2 ^ 64 := lt_of_le_of_lt (hmono s _) hb
    unfold isDigit at hc
    unfold strconv.parseUintLoop
    have h2 : ¬ (n ≥ (2 ^ 64 - 1) / 10 + 1) := by norm_num at h1 ⊢; omega
    have e10 : (n * 10) % 2 ^ 64 = n * 10 := Nat.mod_eq_of_lt (by norm_num at h1 ⊢; omega)
    have e1 : (n * 10 + (c - 48)) % 2 ^ 64 = 10 * n + (c - 48) := by
      rw [Nat.mod_eq_of_lt (by norm_num at h1 ⊢; omega)]; ring
    simp only [hc, and_self, if_true, h2, if_false, e10, e1]
    have h3 : ¬ (10 * n + (c - 48) < n * 10 ∨ 10 * n + (c - 48) > 2 ^ 64 - 1) := by
      norm_num at h1 ⊢; omega
    simp only [h3, if_false]
    exact ih _ (fun d hd' => hd d (List.mem_cons_of_mem _ hd')) hb

theorem Atoi_digits (ds : Str) (hne : ds ≠ []) (hd : ∀ d ∈ ds, isDigit d)
    (hb : decimalValue ds < 2 ^ 63) : strconv.Atoi ds = .ok (decimalValue ds : Int) := by
  cases ds with
  | nil => exact absurd rfl hne
  | cons c r =>
    have hc : isDigit c := hd c (List.mem_cons_self _ _)
    unfold isDigit at hc
    have h43 : c ≠ 43 := by omega
    have h45 : c ≠ 45 := by omega
    have hp : strconv.ParseUint (c :: r) = .ok (decimalValue (c :: r)) := by
      unfold strconv.ParseUint
      simp only [reduceCtorEq, if_false]
      exact parseUintLoop_digits (c :: r) 0 hd (lt_trans hb (by norm_num))
    unfold strconv.Atoi strconv.ParseInt
    simp only [beq_iff_eq, h43, h45, or_self, if_false, hp]
    have hb' : decimalValue (c :: r) < 9223372036854775808 := by norm_num at hb; exact hb
    simp [h45, hb']

theorem parseUintLoop_ok_digits (s : Str) : ∀ (n v : Nat), strconv.parseUintLoop s n = .ok v →
    ∀ d ∈ s, isDigit d := by
  induction s with
  | nil => intro n v _ d hd; simp at hd
  | cons c s ih =>
    intro n v h d hd
    unfold strconv.parseUintLoop at h
    by_cases hc : 48 ≤ c ∧ c ≤ 57
    · simp only [hc, and_self, if_true] at h
      split at h
      · simp at h
      · split at h
        · simp at h
        · rcases List.mem_cons.mp hd with rfl | hd'
          · exact hc
          · exact ih _ v h d hd'
    · simp only [hc, if_false] at h
      simp at h

theorem Atoi_ok_shape (s : Str) (v : Int) (h : strconv.Atoi s = .ok v) :
    ∃ sign ds : Str, (sign = [] ∨ sign = [43] ∨ sign = [45]) ∧ ds ≠ [] ∧ (∀ d ∈ ds, isDigit d) ∧
      s = sign ++ ds := by
  unfold strconv.Atoi strconv.ParseInt at h
  cases s with
  | nil => simp at h
  | cons c r =>
    simp only at h
    have key : ∀ body : Str, (∃ u, strconv.ParseUint body = .ok u) →
        body ≠ [] ∧ ∀ d ∈ body, isDigit d := by
      intro body ⟨u, hu⟩
      unfold strconv.ParseUint at hu
      by_cases hb : body = []
      · simp [hb] at hu
      · simp only [hb, if_false] at hu
        exact ⟨hb, parseUintLoop_ok_digits body 0 u hu⟩
    cases hp : strconv.ParseUint (if (c == 43) = true ∨ (c == 45) = true then r else c :: r) with
    | error e =>
      rw [hp] at h
      cases e <;> simp at h
    | ok u =>
      obtain ⟨hne, hdig⟩ := key _ ⟨u, hp⟩
      by_cases h43 : c = 43
      · subst h43
        simp only [beq_self_eq_true, true_or, if_true] at hne hdig
        exact ⟨[43], r, Or.inr (Or.inl rfl), hne, hdig, rfl⟩
      · by_cases h45 : c = 45
        · subst h45
          simp only [beq_self_eq_true, or_true, if_true] at hne hdig
          exact ⟨[45], r, Or.inr (Or.inr rfl), hne, hdig, rfl⟩
        · simp only [beq_iff_eq, h43, h45, or_self, if_false] at hne hdig
          exact ⟨[], c :: r, Or.inl rfl, hne, hdig, rfl⟩

theorem digitChar_toNat (d : Nat) (h : d < 10) : (Nat.digitChar d).toNat = 48 + d := by
  interval_cases d <;> rfl

theorem toDigitsCore_spec (fuel : Nat) : ∀ (n : Nat) (acc : List Char), n < fuel →
    ∃ ds : Str, ds ≠ [] ∧ (∀ d ∈ ds, isDigit d) ∧ decimalValue ds = n ∧
      (Nat.toDigitsCore 10 fuel n acc).map Char.toNat = ds ++ acc.map Char.toNat := by
  induction fuel with
  | zero => intro n acc h; omega
  | succ f ih =>
    intro n acc h
    have hd : (Nat.digitChar (n % 10)).toNat = 48 + n % 10 :=
      digitChar_toNat _ (Nat.mod_lt _ (by norm_num))
    unfold Nat.toDigitsCore
    by_cases h0 : n / 10 = 0
    · refine ⟨[48 + n % 10], by simp, ?_, ?_, ?_⟩
      · intro d hd'
        simp only [List.mem_singleton] at hd'
        subst hd'
        unfold isDigit
        omega
      · simp only [decimalValue, List.foldl_cons, List.foldl_nil]
        omega
      · simp [h0, hd]
    · obtain ⟨ds, hne, hdig, hval, hmap⟩ :=
        ih (n / 10) (Nat.digitChar (n % 10) :: acc) (by omega)
      refine ⟨ds ++ [48 + n % 10], by simp, ?_, ?_, ?_⟩
      · intro d hd'
        rcases List.mem_append.mp hd' with h1 | h1
        · exact hdig d h1
        · simp only [List.mem_singleton] at h1
          subst h1
          unfold isDigit
          omega
      · unfold decimalValue at hval ⊢
        rw [List.foldl_append, hval]
        simp only [List.foldl_cons, List.foldl_nil]
        omega
      · simp only [h0, if_false, hmap, List.map_cons, hd]
        simp

theorem decimal_spec (n : Nat) :
    decimal n ≠ [] ∧ (∀ d ∈ decimal n, isDigit d) ∧ decimalValue (decimal n) = n := by
  obtain ⟨ds, hne, hdig, hval, hmap⟩ := toDigitsCore_spec (n + 1) n [] (by omega)
  have : decimal n = ds := by
    unfold decimal Nat.toDigits
    simpa using hmap
  rw [this]
  exact ⟨hne, hdig, hval⟩

theorem decimal_mem_isDigit (n : Nat) : ∀ d ∈ decimal n, isDigit d := (decimal_spec n).2.1

/-! ### The regular expression -/

theorem reSrMatchLen_of_shape (k : Nat) (tok post : Str) (hk : 1 ≤ k) (hlen : tok.length = 5)
    (htok : ∀ b ∈ tok, isTokenByte b = true) :
    reSrMatchLen (59 :: (List.replicate k 32 ++ (echoSp ++ (tok ++ (exitSubst ++ post)))))
      = some (1 + k + 5 + 5 + 4 + (post.takeWhile (· != 10)).length) := by
  unfold reSrMatchLen
  have htw : (List.replicate k 32 ++ (echoSp ++ (tok ++ (exitSubst ++ post)))).takeWhile (· == 32)
      = List.replicate k 32 := takeWhile_replicate_append k 32 _ (by simp [echoSp])
  simp only [htw, List.length_replicate]
  have hd : (List.replicate k 32 ++ (echoSp ++ (tok ++ (exitSubst ++ post)))).drop k
      = echoSp ++ (tok ++ (exitSubst ++ post)) := by
    rw [List.drop_append_of_le_length (by simp)]
    simp
  simp only [hd]
  have h5 : (echoSp ++ (tok ++ (exitSubst ++ post))).drop 5 = tok ++ (exitSubst ++ post) := by
    simp [echoSp]
  have h10 : (echoSp ++ (tok ++ (exitSubst ++ post))).drop 10 = exitSubst ++ post := by
    have : (10 : Nat) = 5 + 5 := rfl
    rw [this, ← List.drop_drop, h5, List.drop_append_of_le_length (by omega)]
    simp [hlen]
  have h14 : (echoSp ++ (tok ++ (exitSubst ++ post))).drop 14 = post := by
    have : (14 : Nat) = 10 + 4 := rfl
    rw [this, ← List.drop_drop, h10]
    simp [exitSubst]
  have ht : (tok ++ (exitSubst ++ post)).take 5 = tok := by
    rw [List.take_append_of_le_length (by omega)]
    rw [List.take_of_length_le (by omega)]
  simp only [h5, h10, h14, ht]
  have hall : tok.all isTokenByte = true := by simpa [List.all_eq_true] using htok
  simp [hall, hlen, hk, echoSp, exitSubst]

theorem sigHere_of_reSrMatchLen (s : Str) (n : Nat) (h : reSrMatchLen s = some n) : SigHere s := by
  unfold reSrMatchLen at h
  cases s with
  | nil => simp at h
  | cons c r =>
    simp only at h
    split at h
    · rename_i hc
      simp only [Bool.and_eq_true, beq_iff_eq, decide_eq_true_eq, List.all_eq_true] at hc
      obtain ⟨⟨⟨⟨⟨hc59, hk⟩, hecho⟩, hlen⟩, htok⟩, hexit⟩ := hc
      subst hc59
      have e1 : r = List.replicate (r.takeWhile (· == 32)).length 32
          ++ r.drop (r.takeWhile (· == 32)).length := by
        conv_lhs => rw [← List.takeWhile_append_dropWhile (fun x => x == 32) r]
        rw [drop_takeWhile_length, ← takeWhile_eq_replicate]
      generalize (r.takeWhile (· == 32)).length = k at *
      generalize r.drop k = r1 at *
      have e2 : r1 = echoSp ++ r1.drop 5 := by
        have := List.isPrefixOf_iff_prefix.mp hecho
        obtain ⟨t, ht⟩ := this
        rw [← ht]; simp [echoSp]
      have e3 : r1.drop 5 = (r1.drop 5).take 5 ++ r1.drop 10 := by
        conv_lhs => rw [← List.take_append_drop 5 (r1.drop 5)]
        rw [List.drop_drop]
      have e4 : r1.drop 10 = exitSubst ++ r1.drop 14 := by
        have := List.isPrefixOf_iff_prefix.mp hexit
        obtain ⟨t, ht⟩ := this
        have h14 : r1.drop 14 = (r1.drop 10).drop 4 := by rw [List.drop_drop]
        rw [h14, ← ht]; simp [exitSubst]
      refine ⟨k, (r1.drop 5).take 5, r1.drop 14, hk, hlen, htok, ?_⟩
      rw [← e4, ← e3, ← e2, ← e1]
    · simp at h

theorem reSrMatchLen_isSome_of_sigHere (s : Str) (h : SigHere s) :
    (reSrMatchLen s).isSome = true := by
  obtain ⟨k, tok, post, hk, hlen, htok, rfl⟩ := h
  rw [reSrMatchLen_of_shape k tok post hk hlen htok]
  rfl

theorem FindStringIndex_none (l : Str) (h : ∀ p, ¬ SignatureAt l p) :
    FindStringIndex l = none := by
  induction l with
  | nil => rfl
  | cons c s ih =>
    unfold FindStringIndex
    have h0 : reSrMatchLen (c :: s) = none := by
      cases hm : reSrMatchLen (c :: s) with
      | none => rfl
      | some n => exact absurd (sigHere_of_reSrMatchLen _ n hm) (by simpa [SignatureAt] using h 0)
    rw [h0]
    have := ih (fun p hp => h (p + 1) (by simpa [SignatureAt] using hp))
    simp [this]

theorem FindStringIndex_isSome_of_sigHere (pre s : Str) (h : SigHere s) :
    (FindStringIndex (pre ++ s)).isSome = true := by
  induction pre with
  | nil =>
    obtain ⟨k, tok, post, hk, hlen, htok, rfl⟩ := h
    simp only [List.nil_append]
    unfold FindStringIndex
    rw [reSrMatchLen_of_shape k tok post hk hlen htok]
    rfl
  | cons c pre ih =>
    simp only [List.cons_append]
    unfold FindStringIndex
    cases reSrMatchLen (c :: (pre ++ s)) with
    | some n => rfl
    | none =>
      simp only [Option.isSome_map']
      exact ih

theorem not_signatureAt_of_FindStringIndex_none (l : Str) (h : FindStringIndex l = none) :
    ∀ p, ¬ SignatureAt l p := by
  intro p hs
  have := FindStringIndex_isSome_of_sigHere (l.take p) (l.drop p) hs
  rw [List.take_append_drop, h] at this
  exact absurd this (by simp)

theorem FindStringIndex_leftmost (pre s : Str) (n : Nat) (hm : reSrMatchLen s = some n)
    (hleft : ∀ q < pre.length, ¬ SignatureAt (pre ++ s) q) :
    FindStringIndex (pre ++ s) = some (pre.length, pre.length + n) := by
  induction pre with
  | nil =>
    cases s with
    | nil => simp [reSrMatchLen] at hm
    | cons c r =>
      simp only [List.nil_append, List.length_nil, Nat.zero_add]
      unfold FindStringIndex
      rw [hm]
  | cons c pre ih =>
    have h0 : reSrMatchLen (c :: (pre ++ s)) = none := by
      cases hc : reSrMatchLen (c :: (pre ++ s)) with
      | none => rfl
      | some m =>
        exact absurd (sigHere_of_reSrMatchLen _ m hc)
          (by simpa [SignatureAt] using hleft 0 (by simp))
    have ih' := ih (fun q hq hs => hleft (q + 1) (by simpa using hq)
      (by simpa [SignatureAt] using hs))
    simp only [List.cons_append]
    unfold FindStringIndex
    rw [h0]
    simp only [ih', Option.map_some', List.length_cons]
    congr 2
    omega

theorem leftmost_of_FindStringIndex (l : Str) : ∀ (p e : Nat), FindStringIndex l = some (p, e) →
    ∀ q < p, ¬ SignatureAt l q := by
  induction l with
  | nil => intro p e h; simp [FindStringIndex] at h
  | cons c s ih =>
    intro p e h q hq hs
    unfold FindStringIndex at h
    cases hm : reSrMatchLen (c :: s) with
    | some n =>
      rw [hm] at h
      simp only [Option.some.injEq, Prod.mk.injEq] at h
      omega
    | none =>
      rw [hm] at h
      cases hf : FindStringIndex s with
      | none => rw [hf] at h; simp at h
      | some loc =>
        rw [hf] at h
        simp only [Option.map_some', Option.some.injEq, Prod.mk.injEq] at h
        cases q with
        | zero =>
          have := reSrMatchLen_isSome_of_sigHere _ hs
          simp only [List.drop_zero] at this
          rw [hm] at this
          simp at this
        | succ q' =>
          exact ih loc.1 loc.2 (by rw [hf]) q' (by omega) (by simpa [SignatureAt] using hs)

theorem not_signatureAt_of_no_semicolon (l : Str) (h : 59 ∉ l) : ∀ q, ¬ SignatureAt l q := by
  rintro q ⟨k, tok, post, -, -, -, hs⟩
  apply h
  have : 59 ∈ l.drop q := by rw [hs]; exact List.mem_cons_self _ _
  exact List.mem_of_mem_drop this

/-! ### `cleanToken` and `returnCode` -/

theorem token_ends (T : Str) (hlen : T.length = 5) (htok : ∀ b ∈ T, isTokenByte b = true) :
    ∃ (a z : Nat) (t t' : Str), T = a :: t ∧ T = t' ++ [z] ∧ isPlain a ∧ isPlain z := by
  match T, hlen with
  | [a, b, c, d, e], _ =>
    exact ⟨a, e, [b, c, d, e], [a, b, c, d], rfl, rfl,
      isPlain_of_isTokenByte (htok a (by simp)), isPlain_of_isTokenByte (htok e (by simp))⟩

theorem cleanToken_signature (j k : Nat) (T : Str) (hlen : T.length = 5)
    (htok : ∀ b ∈ T, isTokenByte b = true) :
    cleanToken (List.replicate j 59 ++ (List.replicate k 32 ++ (echoSp ++ T))) = T := by
  obtain ⟨a, z, t, t', hT1, hT2, ha, hz⟩ := token_ends T hlen htok
  unfold cleanToken
  have e0 : (List.replicate j 59 ++ (List.replicate k 32 ++ (echoSp ++ T))).dropWhile (· == 59)
      = List.replicate k 32 ++ (echoSp ++ T) := by
    apply dropWhile_replicate_append
    cases k with
    | zero => simp [echoSp]
    | succ k => simp [List.replicate_succ]
  have e1 : strings.TrimSpace (List.replicate k 32 ++ (echoSp ++ T)) = echoSp ++ T :=
    TrimSpace_spaces_append k (echoSp ++ T) ([99, 104, 111, 32] ++ T) (echoSp ++ t') 101 z
      (by simp [echoSp]) (by rw [hT2]; simp) (by decide) hz
  have e2 : strings.HasPrefix (echoSp ++ T) echoSp = true := by
    simp [strings.HasPrefix, echoSp]
  have e3 : (echoSp ++ T).drop 5 = T := by simp [echoSp]
  simp only [e0, e1, e2, if_true, e3]
  exact TrimSpace_of_plain_ends T t t' a z hT1 hT2 ha hz

theorem returnCode_digits (ds : Str) (hne : ds ≠ []) (hd : ∀ d ∈ ds, isDigit d)
    (hb : decimalValue ds < 2 ^ 63) :
    returnCode (45 :: (ds ++ [45])) = .ok (decimalValue ds : Int) := by
  unfold returnCode
  have hlen : 0 < ds.length := List.length_pos.mpr hne
  have h3 : ¬ ((45 :: (ds ++ [45])).length < 3) := by simp; omega
  have hmid : ((45 :: (ds ++ [45])).take ((45 :: (ds ++ [45])).length - 1)).drop 1 = ds := by
    simp [List.take_append_eq_append_take]
  have hlast : (45 :: (ds ++ [45])).getLast? = some 45 := by
    have : (45 :: (ds ++ [45])) = (45 :: ds) ++ [45] := rfl
    rw [this, List.getLast?_append]; simp
  simp only [h3, if_false, hmid]
  simp [Atoi_digits ds hne hd hb, hlast]

theorem returnCode_decimal (n : Nat) (hn : n < 2 ^ 63) :
    returnCode (45 :: (decimal n ++ [45])) = .ok (n : Int) := by
  obtain ⟨h1, h2, h3⟩ := decimal_spec n
  have := returnCode_digits (decimal n) h1 h2 (by rw [h3]; exact hn)
  rw [h3] at this
  exact this

theorem returnCode_ok_shape (str : Str) (v : Int) (h : returnCode str = .ok v) :
    SignedShape str := by
  unfold returnCode at h
  by_cases h3 : str.length < 3
  · simp [h3] at h
  · simp only [h3, if_false] at h
    by_cases hh : str.head? = some 45
    · simp only [hh, ne_eq, not_true_eq_false, if_false] at h
      by_cases hl : str.getLast? = some 45
      · simp only [hl, ne_eq, not_true_eq_false, if_false] at h
        obtain ⟨sign, ds, hsign, hne, hdig, hmid⟩ := Atoi_ok_shape _ v h
        refine ⟨sign, ds, hsign, hne, hdig, ?_⟩
        -- `str` is its first byte, its middle and its last byte
        cases str with
        | nil => simp at hh
        | cons a t =>
          have ha : a = 45 := by simpa using hh
          subst ha
          rcases List.eq_nil_or_concat t with rfl | ⟨t', z, rfl⟩
          · simp at h3
          · simp only [List.concat_eq_append] at h3 hh hl h hmid ⊢
            have hz : z = 45 := by
              have : (45 :: (t' ++ [z])) = (45 :: t') ++ [z] := rfl
              rw [this, List.getLast?_append] at hl
              simpa using hl
            subst hz
            have : ((45 :: (t' ++ [45])).take ((45 :: (t' ++ [45])).length - 1)).drop 1 = t' := by
              simp [List.take_append_eq_append_take]
            rw [this] at hmid
            rw [hmid]
            simp
      · simp [hl] at h
    · simp [hh] at h

theorem returnCode_error_of_not_shape (str : Str) (h : ¬ SignedShape str) :
    ∃ err, returnCode str = .error err := by
  cases hr : returnCode str with
  | error e => exact ⟨e, rfl⟩
  | ok v => exact absurd (returnCode_ok_shape str v hr) h

theorem not_digitsShape_of_second (a b : Nat) (t : Str) (hb : ¬ isDigit b) :
    ¬ DigitsShape (a :: b :: t) := by
  rintro ⟨ds, hne, hd, h⟩
  cases ds with
  | nil => exact hne rfl
  | cons d ds =>
    simp at h
    exact hb (h.2.1 ▸ hd d (List.mem_cons_self _ _))

theorem not_signedShape_of_second (a b : Nat) (t : Str) (h43 : b ≠ 43) (h45 : b ≠ 45)
    (hb : ¬ isDigit b) : ¬ SignedShape (a :: b :: t) := by
  rintro ⟨sign, ds, hsign, hne, hd, h⟩
  cases ds with
  | nil => exact hne rfl
  | cons d ds =>
    rcases hsign with rfl | rfl | rfl
    · simp at h
      exact hb (h.2.1 ▸ hd d (List.mem_cons_self _ _))
    · simp only [List.singleton_append, List.cons_append, List.nil_append,
        List.cons.injEq] at h
      exact h43 h.2.1
    · simp only [List.singleton_append, List.cons_append, List.nil_append,
        List.cons.injEq] at h
      exact h45 h.2.1

/-! ### One iteration of the loop -/

theorem step_seek_none (es : List Entry) (text : Str)
    (h : FindStringIndex (strings.Trim text [10]) = none) :
    step ⟨es, Entry.zero⟩ text
      = .ok ⟨es ++ [passthrough (strings.Trim text [10])], Entry.zero⟩ := by
  simp [step, Entry.zero, h, passthrough]

theorem step_skip_or_seek (st : State) (text : Str) (hnl : 10 ∉ text)
    (h : st.entry.token = [] ∨ isSkipLine text) :
    step st text
      = match FindStringIndex text with
        | some loc => .ok ⟨st.entries, { st.entry with
            Command := strings.TrimSpace (text.take loc.1),
            token := cleanToken ((text.take (loc.2 - 4)).drop loc.1), Dumb := false }⟩
        | none => .ok ⟨st.entries ++ [{ st.entry with Command := text, Dumb := true }],
            Entry.zero⟩ := by
  have ht : strings.Trim text [10] = text := Trim_newline_of_not_mem _ hnl
  have hg : ¬ (st.entry.token ≠ [] ∧ (!strings.HasPrefix text [62]) = true
      ∧ (!strings.Contains text eotL) = true ∧ (!strings.Contains text eotR) = true) := by
    rintro ⟨h1, h2⟩
    rcases h with h | h
    · exact h1 h
    · exact (not_isSkipLine_iff text).mp h2 h
  unfold step
  simp only [ht, hg, if_false]

theorem isTokenByte_ne_newline {T : Str} (htok : ∀ b ∈ T, isTokenByte b = true) : 10 ∉ T := by
  intro h
  have := htok 10 h
  simp [isTokenByte] at this

theorem sigLine_no_newline (c : Str) (k : Nat) (T : Str) (hnl : 10 ∉ c)
    (htok : ∀ b ∈ T, isTokenByte b = true) : 10 ∉ sigLine c k T := by
  have := isTokenByte_ne_newline htok
  simp [sigLine, hnl, this, echoSp, exitSubst]

theorem FindStringIndex_sigLine (c : Str) (k : Nat) (T : Str) (hk : 1 ≤ k) (hlen : T.length = 5)
    (htok : ∀ b ∈ T, isTokenByte b = true)
    (hleft : ∀ q < c.length, ¬ SignatureAt (sigLine c k T) q) :
    FindStringIndex (sigLine c k T) = some (c.length, c.length + (1 + k + 5 + 5 + 4)) := by
  have hm := reSrMatchLen_of_shape k T [] hk hlen htok
  simp only [List.takeWhile_nil, List.length_nil, Nat.add_zero, List.append_nil] at hm
  exact FindStringIndex_leftmost c _ _ hm hleft

theorem step_sigLine (st : State) (c : Str) (k : Nat) (T : Str) (he : st.entry.token = [])
    (hnl : 10 ∉ c) (hk : 1 ≤ k) (hlen : T.length = 5) (htok : ∀ b ∈ T, isTokenByte b = true)
    (hleft : ∀ q < c.length, ¬ SignatureAt (sigLine c k T) q) :
    step st (sigLine c k T) = .ok ⟨st.entries,
      { st.entry with Command := strings.TrimSpace c, token := T, Dumb := false }⟩ := by
  have ht : strings.Trim (sigLine c k T) [10] = sigLine c k T :=
    Trim_newline_of_not_mem _ (sigLine_no_newline c k T hnl htok)
  have hf := FindStringIndex_sigLine c k T hk hlen htok hleft
  have hm : ((sigLine c k T).take (c.length + (1 + k + 5 + 5 + 4) - 4)).drop c.length
      = List.replicate 1 59 ++ (List.replicate k 32 ++ (echoSp ++ T)) := by
    have e : c.length + (1 + k + 5 + 5 + 4) - 4 = c.length + (1 + k + 5 + 5) := by omega
    rw [e, sigLine, List.take_append, List.drop_left]
    have e2 : (59 :: (List.replicate k 32 ++ (echoSp ++ (T ++ exitSubst))))
        = (59 :: (List.replicate k 32 ++ (echoSp ++ T))) ++ exitSubst := by simp
    rw [e2, List.take_left' (by simp [echoSp, hlen]; omega)]
    rfl
  have hc : (sigLine c k T).take c.length = c := by
    rw [sigLine, List.take_left]
  unfold step
  simp only [ht, he, ne_eq, not_true_eq_false, false_and, if_false, hf, hm, hc,
    cleanToken_signature 1 k T hlen htok]

theorem step_await_output (st : State) (text : Str) (hnl : 10 ∉ text) (he : st.entry.token ≠ [])
    (hskip : ¬ isSkipLine text) (hT : ¬ st.entry.token <:+: text) :
    step st text = .ok ⟨st.entries, { st.entry with
      Output := if st.entry.Output = [] then text else st.entry.Output ++ [10] ++ text }⟩ := by
  have ht : strings.Trim text [10] = text := Trim_newline_of_not_mem _ hnl
  have hg := (not_isSkipLine_iff text).mpr hskip
  have hi := (Index_eq_none_iff text st.entry.token).mpr hT
  unfold step
  simp only [ht, ne_eq, he, not_false_eq_true, hg, and_self, if_true, hi]
  split <;> rfl

theorem step_await_close (st : State) (text : Str) (i : Nat) (rc : Int) (hnl : 10 ∉ text)
    (he : st.entry.token ≠ []) (hskip : ¬ isSkipLine text)
    (hi : strings.Index text st.entry.token = some i)
    (hrc : returnCode (strings.TrimSpace (text.drop (i + st.entry.token.length))) = .ok rc) :
    step st text
      = .ok ⟨st.entries ++ [{ st.entry with ReturnCode := rc }], Entry.zero⟩ := by
  have ht : strings.Trim text [10] = text := Trim_newline_of_not_mem _ hnl
  have hg := (not_isSkipLine_iff text).mpr hskip
  unfold step
  simp only [ht, ne_eq, he, not_false_eq_true, hg, and_self, if_true, hi, hrc]

theorem step_await_error (st : State) (text : Str) (i : Nat) (err : Error) (hnl : 10 ∉ text)
    (he : st.entry.token ≠ []) (hskip : ¬ isSkipLine text)
    (hi : strings.Index text st.entry.token = some i)
    (hrc : returnCode (strings.TrimSpace (text.drop (i + st.entry.token.length))) = .error err) :
    step st text = .error err := by
  have ht : strings.Trim text [10] = text := Trim_newline_of_not_mem _ hnl
  have hg := (not_isSkipLine_iff text).mpr hskip
  unfold step
  simp only [ht, ne_eq, he, not_false_eq_true, hg, and_self, if_true, hi, hrc]

theorem closeLine_no_newline (T : Str) (n : Nat) (htok : ∀ b ∈ T, isTokenByte b = true) :
    10 ∉ closeLine T n := by
  have h1 := isTokenByte_ne_newline htok
  have h2 : 10 ∉ decimal n := fun h => by
    have := decimal_mem_isDigit n 10 h
    unfold isDigit at this
    omega
  simp [closeLine, h1, h2]

theorem closeLine_no_semicolon (T : Str) (n : Nat) (htok : ∀ b ∈ T, isTokenByte b = true) :
    59 ∉ closeLine T n := by
  have h1 : 59 ∉ T := fun h => by
    have := htok 59 h
    simp [isTokenByte] at this
  have h2 : 59 ∉ decimal n := fun h => by
    have := decimal_mem_isDigit n 59 h
    unfold isDigit at this
    omega
  simp [closeLine, h1, h2]

theorem closeLine_not_skip (T : Str) (n : Nat) (hlen : T.length = 5)
    (htok : ∀ b ∈ T, isTokenByte b = true) (hL : ¬ eotL <:+: T) (hR : ¬ eotR <:+: T) :
    ¬ isSkipLine (closeLine T n) := by
  obtain ⟨a, z, t, t', hT1, hT2, ha, hz⟩ := token_ends T hlen htok
  have hmem : ∀ x, x ∈ (45 :: (decimal n ++ [45])) → x = 45 ∨ isDigit x := by
    intro x hx
    simp only [List.mem_cons, List.mem_append, List.mem_singleton, List.not_mem_nil,
      or_false] at hx
    rcases hx with h | h | h
    · exact Or.inl h
    · exact Or.inr (decimal_mem_isDigit n x h)
    · exact Or.inl h
  have h84 : 84 ∉ (45 :: (decimal n ++ [45])) := fun h => by
    rcases hmem 84 h with h | h
    · omega
    · unfold isDigit at h; omega
  have h95 : 95 ∉ (45 :: (decimal n ++ [45])) := fun h => by
    rcases hmem 95 h with h | h
    · omega
    · unfold isDigit at h; omega
  rintro (h | h | h)
  · have h62 : a = 62 := by simpa [closeLine, hT1] using h
    have := htok a (by rw [hT1]; simp)
    rw [h62] at this
    simp [isTokenByte] at this
  · exact hL (infix_of_infix_append eotL T _ 84 [95, 69, 79] rfl h84 h)
  · exact hR (infix_of_infix_append eotR T _ 95 [69, 79, 84] rfl h95 h)

theorem closeLine_returnCode (T : Str) (n : Nat) (hn : n < 2 ^ 63) :
    returnCode (strings.TrimSpace ((closeLine T n).drop (0 + T.length))) = .ok (n : Int) := by
  have e : (closeLine T n).drop (0 + T.length) = 45 :: (decimal n ++ [45]) := by
    simp [closeLine]
  rw [e, TrimSpace_of_plain_ends (45 :: (decimal n ++ [45])) (decimal n ++ [45])
    (45 :: decimal n) 45 45 rfl (by simp) (by decide) (by decide)]
  exact returnCode_decimal n hn

theorem step_closeLine (st : State) (n : Nat) (hn : n < 2 ^ 63)
    (hlen : st.entry.token.length = 5) (htok : ∀ b ∈ st.entry.token, isTokenByte b = true)
    (hL : ¬ eotL <:+: st.entry.token) (hR : ¬ eotR <:+: st.entry.token) :
    step st (closeLine st.entry.token n)
      = .ok ⟨st.entries ++ [{ st.entry with ReturnCode := (n : Int) }], Entry.zero⟩ := by
  have hne : st.entry.token ≠ [] := by
    intro h; rw [h] at hlen; simp at hlen
  exact step_await_close st _ 0 n (closeLine_no_newline _ n htok) hne
    (closeLine_not_skip _ n hlen htok hL hR)
    (Index_of_isPrefix _ _ ⟨_, rfl⟩) (closeLine_returnCode _ n hn)

/-! ### The loop -/

theorem appendOutput_ne_nil (o l : Str) (h : o ≠ []) : appendOutput o l ≠ [] := by
  simp [appendOutput, h]

theorem foldl_appendOutput_of_ne_nil (L : List Str) : ∀ o : Str, o ≠ [] →
    L.foldl appendOutput o = List.intercalate [10] (o :: L) := by
  induction L with
  | nil => intro o _; simp [List.intercalate]
  | cons l L ih =>
    intro o ho
    rw [List.foldl_cons, ih _ (appendOutput_ne_nil o l ho)]
    cases L <;> simp [List.intercalate, appendOutput, ho]

theorem foldl_appendOutput_nil (L : List Str) (h : L.head? = some [] → L.length = 1) :
    L.foldl appendOutput [] = List.intercalate [10] L := by
  cases L with
  | nil => simp [List.intercalate]
  | cons l L =>
    rw [List.foldl_cons]
    have e : appendOutput [] l = l := by simp [appendOutput]
    rw [e]
    by_cases hl : l = []
    · subst hl
      have hL : L = [] := by
        have := h rfl
        simpa using this
      subst hL
      simp [List.intercalate]
    · exact foldl_appendOutput_of_ne_nil L l hl

theorem run_append (xs ys : List Str) (st : State) :
    run (xs ++ ys) st
      = match run xs st with
        | (st1, some err) => (st1, some err)
        | (st1, none) => run ys st1 := by
  induction xs generalizing st with
  | nil => simp [run]
  | cons x xs ih =>
    simp only [List.cons_append, run]
    cases step st x with
    | error e => rfl
    | ok st1 => exact ih st1

theorem run_after (A rest : List Str) (h : (run A State.init).2 = none) :
    run (A ++ rest) State.init = run rest (run A State.init).1 := by
  rw [run_append]
  cases hr : run A State.init with
  | mk st e =>
    rw [hr] at h
    simp only at h
    subst h
    rfl

theorem parse_ofLines_entries (A : List Str) :
    (parse (Reader.ofLines A)).1 = (run A State.init).1.entries := by
  unfold parse Reader.ofLines
  cases run A State.init with
  | mk st e => cases e <;> rfl

theorem parse_ofLines_error (A : List Str) :
    (parse (Reader.ofLines A)).2 = (run A State.init).2 := by
  unfold parse Reader.ofLines
  cases run A State.init with
  | mk st e => cases e <;> rfl

theorem run_passthrough (lines : List Str) (es : List Entry)
    (hnl : ∀ l ∈ lines, 10 ∉ l) (hsig : ∀ l ∈ lines, ∀ p, ¬ SignatureAt l p) :
    run lines ⟨es, Entry.zero⟩ = (⟨es ++ lines.map passthrough, Entry.zero⟩, none) := by
  induction lines generalizing es with
  | nil => simp [run]
  | cons l ls ih =>
    have ht : strings.Trim l [10] = l := Trim_newline_of_not_mem l (hnl l (List.mem_cons_self _ _))
    have hf : FindStringIndex (strings.Trim l [10]) = none := by
      rw [ht]; exact FindStringIndex_none l (hsig l (List.mem_cons_self _ _))
    rw [run, step_seek_none es l hf, ht]
    simp only
    rw [ih _ (fun x hx => hnl x (List.mem_cons_of_mem _ hx))
      (fun x hx => hsig x (List.mem_cons_of_mem _ hx))]
    simp

theorem run_output_lines (L : List Str) : ∀ (st : State), st.entry.token ≠ [] →
    (∀ l ∈ L, 10 ∉ l) → (∀ l ∈ L, ¬ st.entry.token <:+: l) → (∀ l ∈ L, ¬ isSkipLine l) →
    run L st = (⟨st.entries,
      { st.entry with Output := L.foldl appendOutput st.entry.Output }⟩, none) := by
  induction L with
  | nil => intro st _ _ _ _; rfl
  | cons l L ih =>
    intro st he hnl hT hskip
    have h1 := step_await_output st l (hnl l (List.mem_cons_self _ _)) he
      (hskip l (List.mem_cons_self _ _)) (hT l (List.mem_cons_self _ _))
    rw [run, h1]
    exact ih ⟨st.entries, { st.entry with Output := appendOutput st.entry.Output l }⟩ he
      (fun x hx => hnl x (List.mem_cons_of_mem _ hx))
      (fun x hx => hT x (List.mem_cons_of_mem _ hx))
      (fun x hx => hskip x (List.mem_cons_of_mem _ hx))

theorem run_sigLine_output (st : State) (c T : Str) (k : Nat) (L : List Str)
    (he : st.entry.token = []) (hnl : 10 ∉ c) (hk : 1 ≤ k) (hlen : T.length = 5)
    (htok : ∀ b ∈ T, isTokenByte b = true)
    (hleft : ∀ q < c.length, ¬ SignatureAt (sigLine c k T) q)
    (hLnl : ∀ l ∈ L, 10 ∉ l) (hLT : ∀ l ∈ L, ¬ T <:+: l) (hLskip : ∀ l ∈ L, ¬ isSkipLine l)
    (rest : List Str) :
    run (sigLine c k T :: (L ++ rest)) st
      = run rest ⟨st.entries, ⟨strings.TrimSpace c, L.foldl appendOutput st.entry.Output, T,
          false, st.entry.ReturnCode⟩⟩ := by
  have hne : T ≠ [] := by intro h; rw [h] at hlen; simp at hlen
  have h1 := step_sigLine st c k T he hnl hk hlen htok hleft
  have h2 := run_output_lines L
    ⟨st.entries, ⟨strings.TrimSpace c, st.entry.Output, T, false, st.entry.ReturnCode⟩⟩
    hne hLnl hLT hLskip
  rw [run, h1]
  show run (L ++ rest)
    ⟨st.entries, ⟨strings.TrimSpace c, st.entry.Output, T, false, st.entry.ReturnCode⟩⟩ = _
  rw [run_append, h2]

/-! ### The constants and the helper notions -/

theorem constants_are_ascii :
    echoSp = ascii "echo " ∧ exitSubst = ascii "-$?-" ∧ eotL = ascii "_EOT" ∧ eotR = ascii "EOT_"
      ∧ [59] = ascii ";" ∧ [62] = ascii ">" ∧ [45] = ascii "-" ∧ [35] = ascii "#"
      ∧ [10] = ascii "\n" ∧ [32] = ascii " " := by
  decide

theorem isTokenByte_iff (b : Nat) :
    isTokenByte b = true ↔
      ('a'.toNat ≤ b ∧ b ≤ 'z'.toNat) ∨ ('A'.toNat ≤ b ∧ b ≤ 'Z'.toNat)
        ∨ ('0'.toNat ≤ b ∧ b ≤ '9'.toNat) ∨ b = '~'.toNat ∨ b = '_'.toNat := by
  have e : 'a'.toNat = 97 ∧ 'z'.toNat = 122 ∧ 'A'.toNat = 65 ∧ 'Z'.toNat = 90 ∧ '0'.toNat = 48
      ∧ '9'.toNat = 57 ∧ '~'.toNat = 126 ∧ '_'.toNat = 95 := by decide
  obtain ⟨e1, e2, e3, e4, e5, e6, e7, e8⟩ := e
  rw [e1, e2, e3, e4, e5, e6, e7, e8]
  simp only [isTokenByte, Bool.or_eq_true, Bool.and_eq_true, decide_eq_true_eq, beq_iff_eq]
  tauto

theorem decimal_eq_repr (n : Nat) : decimal n = ascii (Nat.repr n) := rfl

theorem Index_some_spec (s sub : Str) : ∀ i, strings.Index s sub = some i →
    sub <+: s.drop i ∧ ∀ j < i, ¬ sub <+: s.drop j := by
  induction s with
  | nil =>
    intro i h
    unfold strings.Index at h
    by_cases hs : sub = []
    · simp only [hs, if_true, Option.some.injEq] at h
      subst h
      subst hs
      simp
    · simp [hs] at h
  | cons c s ih =>
    intro i h
    unfold strings.Index at h
    by_cases hp : sub.isPrefixOf (c :: s) = true
    · simp only [hp, if_true, Option.some.injEq] at h
      subst h
      exact ⟨by simpa using List.isPrefixOf_iff_prefix.mp hp, fun j hj => by omega⟩
    · have hp' : sub.isPrefixOf (c :: s) = false := Bool.eq_false_iff.mpr hp
      rw [hp'] at h
      cases hi : strings.Index s sub with
      | none => rw [hi] at h; simp at h
      | some i' =>
        rw [hi] at h
        simp only [Bool.false_eq_true, if_false, Option.map_some', Option.some.injEq] at h
        subst h
        obtain ⟨h1, h2⟩ := ih i' hi
        refine ⟨by simpa using h1, ?_⟩
        intro j hj
        cases j with
        | zero =>
          simp only [List.drop_zero]
          exact fun hpre => hp (List.isPrefixOf_iff_prefix.mpr hpre)
        | succ j' =>
          simp only [List.drop_succ_cons]
          exact h2 j' (by omega)

/-! ### What trimming cannot remove -/

theorem spaceSeqs_not_plain : ∀ ws ∈ strings.spaceSeqs, ∀ b ∈ ws, ¬ isPlain b := by
  decide

theorem spaceWidthLast_spec (s : Str) (h : strings.spaceWidthLast s ≠ 0) :
    ∃ ws ∈ strings.spaceSeqs, ws <:+ s ∧ strings.spaceWidthLast s = ws.length := by
  unfold strings.spaceWidthLast at h ⊢
  cases hf : strings.spaceSeqs.find? (fun w => w.reverse.isPrefixOf s.reverse) with
  | none => rw [hf] at h; exact absurd rfl h
  | some ws =>
    refine ⟨ws, List.mem_of_find?_eq_some hf, ?_, rfl⟩
    have := List.find?_some hf
    simp only [List.isPrefixOf_iff_prefix, List.reverse_prefix] at this
    exact this

theorem spaceWidthLast_le (a X : Str) (p : Nat) (hp : isPlain p) :
    strings.spaceWidthLast (a ++ p :: X) ≤ X.length := by
  by_cases h : strings.spaceWidthLast (a ++ p :: X) = 0
  · omega
  · obtain ⟨ws, hmem, ⟨u, hu⟩, hw⟩ := spaceWidthLast_spec _ h
    rw [hw]
    have e : u ++ ws = (a ++ [p]) ++ X := by rw [hu]; simp
    rcases List.append_eq_append_iff.mp e with ⟨a', h1, h2⟩ | ⟨c', h1, h2⟩
    · -- `ws` starts before `X`: it would hold the plain byte `p`
      rcases List.eq_nil_or_concat a' with rfl | ⟨a'', y, rfl⟩
      · simp only [List.nil_append] at h2
        rw [h2]
      · exfalso
        simp only [List.concat_eq_append] at h1 h2
        have hy : y = p := by
          have h3 : (u ++ a'') ++ [y] = a ++ [p] := by
            rw [h1]; simp
          exact List.singleton_inj.mp (List.append_inj' h3 rfl).2
        exact spaceSeqs_not_plain ws hmem p (by rw [h2, hy]; simp) hp
    · rw [h2]
      simp

theorem trimRightSpace_keeps (fuel : Nat) (a : Str) (p : Nat) (hp : isPlain p) :
    ∀ X : Str, ∃ X' : Str, strings.trimRightSpace fuel (a ++ p :: X) = a ++ p :: X' := by
  induction fuel with
  | zero => intro X; exact ⟨X, rfl⟩
  | succ f ih =>
    intro X
    unfold strings.trimRightSpace
    by_cases h : strings.spaceWidthLast (a ++ p :: X) = 0
    · exact ⟨X, by simp [h]⟩
    · have hle := spaceWidthLast_le a X p hp
      have e : (a ++ p :: X).take ((a ++ p :: X).length - strings.spaceWidthLast (a ++ p :: X))
          = a ++ p :: X.take (X.length - strings.spaceWidthLast (a ++ p :: X)) := by
        have e1 : (a ++ p :: X).length - strings.spaceWidthLast (a ++ p :: X)
            = a.length + (1 + (X.length - strings.spaceWidthLast (a ++ p :: X))) := by
          simp only [List.length_append, List.length_cons]
          omega
        rw [e1, List.take_append]
        have e2 : 1 + (X.length - strings.spaceWidthLast (a ++ p :: X))
            = (X.length - strings.spaceWidthLast (a ++ p :: X)) + 1 := by omega
        rw [e2, List.take_succ_cons]
      simp only [h, if_false, e]
      exact ih _

/-! ### Command lines with text after the exit-status substitution -/

theorem cleanToken_trailing (k : Nat) (T X : Str) (hlen : T.length = 5)
    (htok : ∀ b ∈ T, isTokenByte b = true) :
    ∃ X' : Str, cleanToken (59 :: (List.replicate k 32 ++ (echoSp ++ (T ++ 45 :: X))))
      = T ++ 45 :: X' := by
  obtain ⟨a, z, t, t', hT1, hT2, ha, hz⟩ := token_ends T hlen htok
  have h45 : isPlain 45 := by decide
  unfold cleanToken
  have e0 : (59 :: (List.replicate k 32 ++ (echoSp ++ (T ++ 45 :: X)))).dropWhile (· == 59)
      = List.replicate k 32 ++ (echoSp ++ (T ++ 45 :: X)) := by
    have := dropWhile_replicate_append 1 59
      (List.replicate k 32 ++ (echoSp ++ (T ++ 45 :: X)))
      (by cases k with
          | zero => simp [echoSp]
          | succ k => simp [List.replicate_succ])
    simpa using this
  -- first `TrimSpace`: the spaces go, `echo T-` stays
  obtain ⟨X1, e1⟩ : ∃ X1 : Str,
      strings.TrimSpace (List.replicate k 32 ++ (echoSp ++ (T ++ 45 :: X)))
        = echoSp ++ (T ++ 45 :: X1) := by
    unfold strings.TrimSpace
    have el : strings.trimLeftSpace (List.replicate k 32 ++ (echoSp ++ (T ++ 45 :: X))).length
        (List.replicate k 32 ++ (echoSp ++ (T ++ 45 :: X))) = echoSp ++ (T ++ 45 :: X) := by
      rw [List.length_append, List.length_replicate, trimLeftSpace_spaces]
      exact trimLeftSpace_cons_plain _ 101 _ (by decide)
    simp only [el]
    have : echoSp ++ (T ++ 45 :: X) = (echoSp ++ T) ++ 45 :: X := by simp
    rw [this]
    obtain ⟨X1, hX1⟩ := trimRightSpace_keeps ((echoSp ++ T) ++ 45 :: X).length (echoSp ++ T) 45
      h45 X
    exact ⟨X1, by rw [hX1]; simp⟩
  have e2 : strings.HasPrefix (echoSp ++ (T ++ 45 :: X1)) echoSp = true := by
    simp [strings.HasPrefix, echoSp]
  have e3 : (echoSp ++ (T ++ 45 :: X1)).drop 5 = T ++ 45 :: X1 := by simp [echoSp]
  simp only [e0, e1, e2, if_true, e3]
  -- second `TrimSpace`
  obtain ⟨X2, hX2⟩ := trimRightSpace_keeps (T ++ 45 :: X1).length T 45 h45 X1
  refine ⟨X2, ?_⟩
  unfold strings.TrimSpace
  have el : strings.trimLeftSpace (T ++ 45 :: X1).length (T ++ 45 :: X1) = T ++ 45 :: X1 := by
    rw [hT1]
    exact trimLeftSpace_cons_plain _ a _ ha
  simp only [el]
  exact hX2

/-- A command line with text `s` after `-$?-`. -/
theorem step_sigLine_trailing (st : State) (c T s : Str) (k : Nat) (he : st.entry.token = [])
    (hnl : 10 ∉ c) (hs : s ≠ []) (hsnl : 10 ∉ s) (hk : 1 ≤ k) (hlen : T.length = 5)
    (htok : ∀ b ∈ T, isTokenByte b = true)
    (hleft : ∀ q < c.length, ¬ SignatureAt (sigLine c k T ++ s) q) :
    ∃ X : Str, step st (sigLine c k T ++ s) = .ok ⟨st.entries,
      { st.entry with Command := strings.TrimSpace c, token := T ++ 45 :: X, Dumb := false }⟩ := by
  have hline : sigLine c k T ++ s
      = c ++ 59 :: (List.replicate k 32 ++ (echoSp ++ (T ++ (exitSubst ++ s)))) := by
    simp [sigLine]
  have hnl' : 10 ∉ sigLine c k T ++ s := by
    intro h
    rcases List.mem_append.mp h with h | h
    · exact sigLine_no_newline c k T hnl htok h
    · exact hsnl h
  have ht : strings.Trim (sigLine c k T ++ s) [10] = sigLine c k T ++ s :=
    Trim_newline_of_not_mem _ hnl'
  have htw : s.takeWhile (· != 10) = s := by
    rw [List.takeWhile_eq_self_iff]
    intro x hx
    have : x ≠ 10 := fun h => hsnl (h ▸ hx)
    simpa using this
  have hm := reSrMatchLen_of_shape k T s hk hlen htok
  rw [htw] at hm
  have hf : FindStringIndex (sigLine c k T ++ s)
      = some (c.length, c.length + (1 + k + 5 + 5 + 4 + s.length)) := by
    rw [hline] at hleft ⊢
    exact FindStringIndex_leftmost c _ _ hm hleft
  obtain ⟨s', y, hsy⟩ : ∃ s' y, s = s' ++ [y] := by
    rcases List.eq_nil_or_concat s with h | ⟨s', y, h⟩
    · exact absurd h hs
    · exact ⟨s', y, by simpa using h⟩
  -- the match without its last four bytes
  have hcut : ((sigLine c k T ++ s).take (c.length + (1 + k + 5 + 5 + 4 + s.length) - 4)).drop
      c.length = 59 :: (List.replicate k 32 ++ (echoSp ++ (T ++ (exitSubst ++ s).take s.length)))
      := by
    have e : c.length + (1 + k + 5 + 5 + 4 + s.length) - 4
        = c.length + (1 + k + 5 + 5 + s.length) := by omega
    rw [e, hline, List.take_append, List.drop_left]
    have e2 : 1 + k + 5 + 5 + s.length = (k + 5 + 5 + s.length) + 1 := by omega
    rw [e2, List.take_succ_cons]
    have e3 : k + 5 + 5 + s.length = (List.replicate k 32).length + (5 + 5 + s.length) := by
      simp; omega
    rw [e3, List.take_append]
    have e4 : 5 + 5 + s.length = echoSp.length + (5 + s.length) := by simp [echoSp]; omega
    rw [e4, List.take_append]
    have e5 : 5 + s.length = T.length + s.length := by rw [hlen]
    rw [e5, List.take_append]
  have hr : ∃ X, (exitSubst ++ s).take s.length = 45 :: X := by
    rw [hsy]
    refine ⟨([36, 63, 45] ++ s' ++ [y]).take s'.length, ?_⟩
    simp [exitSubst, List.take_succ_cons]
  obtain ⟨X, hX⟩ := hr
  obtain ⟨X', hX'⟩ := cleanToken_trailing k T X hlen htok
  have hc : (sigLine c k T ++ s).take c.length = c := by
    rw [hline, List.take_left]
  refine ⟨X', ?_⟩
  unfold step
  simp only [ht, he, ne_eq, not_true_eq_false, false_and, if_false, hf, hcut, hX, hX', hc]

/-- Whatever follows `-$?-` on a command line, the token that is installed begins with the
five bytes matched by the regular expression. -/
theorem step_sigLine_any (st : State) (c T s : Str) (k : Nat) (he : st.entry.token = [])
    (hnl : 10 ∉ c) (hsnl : 10 ∉ s) (hk : 1 ≤ k) (hlen : T.length = 5)
    (htok : ∀ b ∈ T, isTokenByte b = true)
    (hleft : ∀ q < c.length, ¬ SignatureAt (sigLine c k T ++ s) q) :
    ∃ T' : Str, T <+: T' ∧ step st (sigLine c k T ++ s) = .ok ⟨st.entries,
      { st.entry with Command := strings.TrimSpace c, token := T', Dumb := false }⟩ := by
  by_cases hs : s = []
  · subst hs
    simp only [List.append_nil] at hleft ⊢
    exact ⟨T, List.prefix_refl T, step_sigLine st c k T he hnl hk hlen htok hleft⟩
  · obtain ⟨X, hX⟩ := step_sigLine_trailing st c T s k he hnl hs hsnl hk hlen htok hleft
    exact ⟨T ++ 45 :: X, List.prefix_append T _, hX⟩

/-- With text after `-$?-` the token that is installed is never the token `T` of the
command line: it is `T` followed by a hyphen and, possibly, more. -/
theorem token_of_sigLine_trailing_ne (st : State) (c T s : Str) (k : Nat)
    (he : st.entry.token = []) (hnl : 10 ∉ c) (hs : s ≠ []) (hsnl : 10 ∉ s) (hk : 1 ≤ k)
    (hlen : T.length = 5) (htok : ∀ b ∈ T, isTokenByte b = true)
    (hleft : ∀ q < c.length, ¬ SignatureAt (sigLine c k T ++ s) q) :
    ∃ st1 : State, step st (sigLine c k T ++ s) = .ok st1 ∧ st1.entry.token ≠ T := by
  obtain ⟨X, hX⟩ := step_sigLine_trailing st c T s k he hnl hs hsnl hk hlen htok hleft
  refine ⟨_, hX, ?_⟩
  intro h
  have := congrArg List.length h
  simp at this

theorem run_sigLine_any_output (st : State) (c T s : Str) (k : Nat) (L : List Str)
    (he : st.entry.token = []) (hnl : 10 ∉ c) (hsnl : 10 ∉ s) (hk : 1 ≤ k) (hlen : T.length = 5)
    (htok : ∀ b ∈ T, isTokenByte b = true)
    (hleft : ∀ q < c.length, ¬ SignatureAt (sigLine c k T ++ s) q)
    (hLnl : ∀ l ∈ L, 10 ∉ l) (hLT : ∀ l ∈ L, ¬ T <:+: l) (hLskip : ∀ l ∈ L, ¬ isSkipLine l) :
    ∃ e : Entry, run ((sigLine c k T ++ s) :: L) st = (⟨st.entries, e⟩, none) := by
  obtain ⟨T', hpre, h1⟩ := step_sigLine_any st c T s k he hnl hsnl hk hlen htok hleft
  have hne : T' ≠ [] := by
    intro h
    rw [h] at hpre
    have := List.prefix_nil.mp hpre
    rw [this] at hlen
    simp at hlen
  have h2 := run_output_lines L
    ⟨st.entries, ⟨strings.TrimSpace c, st.entry.Output, T', false, st.entry.ReturnCode⟩⟩
    hne hLnl (fun l hl h => hLT l hl (hpre.isInfix.trans h)) hLskip
  refine ⟨⟨strings.TrimSpace c, L.foldl appendOutput st.entry.Output, T', false,
    st.entry.ReturnCode⟩, ?_⟩
  rw [run, h1]
  exact h2

/-! ### `cleanFragment` -/

theorem Index_singleton (url : Str) (b : Nat) :
    strings.Index url [b]
      = if b ∈ url then some (url.takeWhile (· != b)).length else none := by
  induction url with
  | nil => simp [strings.Index]
  | cons c s ih =>
    unfold strings.Index
    by_cases h : b = c
    · subst h
      simp [List.isPrefixOf]
    · have hpre : [b].isPrefixOf (c :: s) = false := by
        simp [List.isPrefixOf, h]
      have hne : (c != b) = true := by simpa using Ne.symm h
      rw [hpre, ih]
      by_cases hm : b ∈ s
      · simp [hm, h, List.takeWhile_cons, hne]
      · simp [hm, h]

theorem takeWhile_ne_append (url : Str) (b : Nat) (h : b ∈ url) :
    ∃ rest, url = url.takeWhile (· != b) ++ b :: rest := by
  induction url with
  | nil => simp at h
  | cons c s ih =>
    by_cases hc : c = b
    · subst hc
      exact ⟨s, by simp⟩
    · have hm : b ∈ s := by
        rcases List.mem_cons.mp h with h1 | h1
        · exact absurd h1.symm hc
        · exact h1
      obtain ⟨rest, hr⟩ := ih hm
      refine ⟨rest, ?_⟩
      have hne : (c != b) = true := by simpa using hc
      rw [List.takeWhile_cons, hne]
      simp only [if_true, List.cons_append]
      exact congrArg _ hr

theorem not_mem_takeWhile_ne (url : Str) (b : Nat) : b ∉ url.takeWhile (· != b) := by
  intro h
  have := List.mem_takeWhile_imp h
  simp at this

theorem take_length_takeWhile (l : Str) (p : Nat → Bool) :
    l.take (l.takeWhile p).length = l.takeWhile p := by
  induction l with
  | nil => rfl
  | cons a t ih =>
    by_cases h : p a = true
    · simp [List.takeWhile_cons, h, ih]
    · simp [List.takeWhile_cons, h]

theorem cleanFragment_eq (url : Str) :
    cleanFragment url
      = if 35 ∈ url ∧ url.head? ≠ some 35 then url.takeWhile (· != 35) else url := by
  unfold cleanFragment
  rw [Index_singleton]
  by_cases hm : 35 ∈ url
  · cases url with
    | nil => simp at hm
    | cons c s =>
      by_cases hc : c = 35
      · subst hc
        simp
      · have hne : (c != 35) = true := by simpa using hc
        simp only [hm, if_true, List.takeWhile_cons, hne, List.length_cons, List.head?_cons,
          ne_eq, Option.some.injEq, hc, not_false_eq_true, and_self]
        simp only [Nat.succ_pos, gt_iff_lt, if_true]
        have : ((c :: s).takeWhile (· != 35)).length = (s.takeWhile (· != 35)).length + 1 := by
          simp [List.takeWhile_cons, hne]
        rw [← this, ← List.takeWhile_cons_of_pos (p := (· != 35)) hne]
        exact take_length_takeWhile (c :: s) _
  · simp [hm]

/-! ### Entries are only appended -/

theorem step_keeps_entries (st st1 : State) (text : Str) (h : step st text = .ok st1) :
    st.entries <+: st1.entries := by
  unfold step at h
  simp only at h
  split at h
  · split at h
    · split at h
      · simp at h
      · simp only [Except.ok.injEq] at h
        subst h
        exact List.prefix_append _ _
    · split at h <;>
      · simp only [Except.ok.injEq] at h
        subst h
        exact List.prefix_refl _
  · split at h
    · simp only [Except.ok.injEq] at h
      subst h
      exact List.prefix_refl _
    · simp only [Except.ok.injEq] at h
      subst h
      exact List.prefix_append _ _

theorem run_keeps_entries (ys : List Str) : ∀ st : State,
    st.entries <+: (run ys st).1.entries := by
  induction ys with
  | nil => intro st; exact List.prefix_refl _
  | cons y ys ih =>
    intro st
    unfold run
    cases h : step st y with
    | error e => exact List.prefix_refl _
    | ok st1 => exact (step_keeps_entries st st1 y h).trans (ih st1)

theorem Index_append_first (p T rest : Str)
    (hfirst : ∀ j < p.length, ¬ T <+: (p ++ T).drop j) :
    strings.Index (p ++ T ++ rest) T = some p.length := by
  induction p with
  | nil => exact Index_of_isPrefix _ _ ⟨rest, by simp⟩
  | cons c p ih =>
    have h0 : ¬ T <+: c :: (p ++ T ++ rest) := by
      intro h
      have h1 : c :: (p ++ T) <+: c :: (p ++ T ++ rest) := ⟨rest, by simp⟩
      have := List.prefix_of_prefix_length_le h h1 (by simp; omega)
      exact hfirst 0 (by simp) (by simpa using this)
    have hpre : T.isPrefixOf (c :: (p ++ T ++ rest)) = false :=
      Bool.eq_false_iff.mpr fun h => h0 (List.isPrefixOf_iff_prefix.mp h)
    have ih' := ih (fun j hj h => hfirst (j + 1) (by simpa using hj) (by simpa using h))
    simp only [List.cons_append]
    unfold strings.Index
    rw [hpre, ih']
    simp

/-! ### The token of any match -/

theorem FindStringIndex_some_shape (line : Str) : ∀ loc : Nat × Nat,
    FindStringIndex line = some loc →
    ∃ (c : Str) (k : Nat) (T post : Str), 1 ≤ k ∧ T.length = 5 ∧
      (∀ b ∈ T, isTokenByte b = true) ∧
      line = c ++ 59 :: (List.replicate k 32 ++ (echoSp ++ (T ++ (exitSubst ++ post)))) ∧
      loc = (c.length, c.length + (1 + k + 5 + 5 + 4 + (post.takeWhile (· != 10)).length)) := by
  induction line with
  | nil => intro loc h; simp [FindStringIndex] at h
  | cons a s ih =>
    intro loc h
    unfold FindStringIndex at h
    cases hm : reSrMatchLen (a :: s) with
    | some n =>
      rw [hm] at h
      simp only [Option.some.injEq] at h
      obtain ⟨k, T, post, hk, hlen, htok, hs⟩ := sigHere_of_reSrMatchLen _ n hm
      have hn := reSrMatchLen_of_shape k T post hk hlen htok
      rw [← hs, hm] at hn
      simp only [Option.some.injEq] at hn
      refine ⟨[], k, T, post, hk, hlen, htok, by simpa using hs, ?_⟩
      rw [← h, hn]
      simp
    | none =>
      rw [hm] at h
      cases hf : FindStringIndex s with
      | none => rw [hf] at h; simp at h
      | some loc' =>
        rw [hf] at h
        simp only [Option.map_some', Option.some.injEq] at h
        obtain ⟨c, k, T, post, hk, hlen, htok, hs, hloc⟩ := ih loc' hf
        refine ⟨a :: c, k, T, post, hk, hlen, htok, by rw [hs]; simp, ?_⟩
        rw [← h, hloc]
        simp only [List.length_cons, Prod.mk.injEq]
        refine ⟨trivial, ?_⟩
        generalize (post.takeWhile (· != 10)).length = m
        omega

theorem match_cut (c T post : Str) (k m : Nat) (hlen : T.length = 5) :
    ((c ++ 59 :: (List.replicate k 32 ++ (echoSp ++ (T ++ (exitSubst ++ post))))).take
        (c.length + (1 + k + 5 + 5 + 4 + m) - 4)).drop c.length
      = 59 :: (List.replicate k 32 ++ (echoSp ++ (T ++ (exitSubst ++ post).take m))) := by
  have e : c.length + (1 + k + 5 + 5 + 4 + m) - 4 = c.length + (1 + k + 5 + 5 + m) := by omega
  rw [e, List.take_append, List.drop_left]
  have e2 : 1 + k + 5 + 5 + m = (k + 5 + 5 + m) + 1 := by omega
  rw [e2, List.take_succ_cons]
  have e3 : k + 5 + 5 + m = (List.replicate k 32).length + (5 + 5 + m) := by
    simp; omega
  rw [e3, List.take_append]
  have e4 : 5 + 5 + m = echoSp.length + (5 + m) := by simp [echoSp]; omega
  rw [e4, List.take_append]
  have e5 : 5 + m = T.length + m := by rw [hlen]
  rw [e5, List.take_append]

/-- The token installed for a match begins with the five bytes matched by the class
`[a-zA-Z0-9~_]`; in particular it is not empty. -/
theorem cleanToken_of_match (line : Str) (loc : Nat × Nat)
    (h : FindStringIndex line = some loc) :
    ∃ T X : Str, T.length = 5 ∧ (∀ b ∈ T, isTokenByte b = true) ∧
      cleanToken ((line.take (loc.2 - 4)).drop loc.1) = T ++ X := by
  obtain ⟨c, k, T, post, hk, hlen, htok, hs, hloc⟩ := FindStringIndex_some_shape line loc h
  subst hs
  subst hloc
  simp only
  rw [match_cut c T post k _ hlen]
  refine ⟨T, ?_⟩
  cases hm : (post.takeWhile (· != 10)).length with
  | zero =>
    refine ⟨[], hlen, htok, ?_⟩
    have := cleanToken_signature 1 k T hlen htok
    simpa using this
  | succ m =>
    have hr : (exitSubst ++ post).take (m + 1) = 45 :: ([36, 63, 45] ++ post).take m := by
      simp [exitSubst, List.take_succ_cons]
    rw [hr]
    obtain ⟨X', hX'⟩ := cleanToken_trailing k T (([36, 63, 45] ++ post).take m) hlen htok
    exact ⟨45 :: X', hlen, htok, hX'⟩

theorem cleanToken_of_match_ne_nil (line : Str) (loc : Nat × Nat)
    (h : FindStringIndex line = some loc) :
    cleanToken ((line.take (loc.2 - 4)).drop loc.1) ≠ [] := by
  obtain ⟨T, X, hlen, -, hc⟩ := cleanToken_of_match line loc h
  rw [hc]
  intro h0
  have := congrArg List.length h0
  simp [hlen] at this

/-! ### The four outcomes of an iteration -/

theorem step_cases (st st1 : State) (text : Str) (h : step st text = .ok st1) :
    (∃ rc : Int, st.entry.token ≠ [] ∧
      st1 = ⟨st.entries ++ [{ st.entry with ReturnCode := rc }], Entry.zero⟩) ∨
    (∃ o : Str, st.entry.token ≠ [] ∧ st1 = ⟨st.entries, { st.entry with Output := o }⟩) ∨
    (∃ loc : Nat × Nat, FindStringIndex (strings.Trim text [10]) = some loc ∧
      st1 = ⟨st.entries, { st.entry with
        Command := strings.TrimSpace ((strings.Trim text [10]).take loc.1),
        token := cleanToken (((strings.Trim text [10]).take (loc.2 - 4)).drop loc.1),
        Dumb := false }⟩) ∨
    (FindStringIndex (strings.Trim text [10]) = none ∧
      st1 = ⟨st.entries ++ [{ st.entry with Command := strings.Trim text [10], Dumb := true }],
        Entry.zero⟩) := by
  unfold step at h
  simp only at h
  split at h
  · rename_i hg
    split at h
    · split at h
      · simp at h
      · rename_i rc _
        simp only [Except.ok.injEq] at h
        exact Or.inl ⟨rc, hg.1, h.symm⟩
    · split at h <;>
      · simp only [Except.ok.injEq] at h
        exact Or.inr (Or.inl ⟨_, hg.1, h.symm⟩)
  · split at h
    · rename_i loc hf
      simp only [Except.ok.injEq] at h
      exact Or.inr (Or.inr (Or.inl ⟨loc, hf, h.symm⟩))
    · rename_i hf
      simp only [Except.ok.injEq] at h
      exact Or.inr (Or.inr (Or.inr ⟨hf, h.symm⟩))

theorem step_sound (st st1 : State) (text : Str) (hs : st.Sound)
    (h : step st text = .ok st1) : st1.Sound := by
  obtain ⟨h1, h2, h3⟩ := hs
  have hz : Entry.zero.token = [] → Entry.zero = Entry.zero := fun _ => rfl
  rcases step_cases st st1 text h with ⟨rc, ht, rfl⟩ | ⟨o, ht, rfl⟩ | ⟨loc, hf, rfl⟩
    | ⟨hf, rfl⟩
  · refine ⟨fun _ => rfl, rfl, ?_⟩
    intro e he hd
    rcases List.mem_append.mp he with he | he
    · exact h3 e he hd
    · simp only [List.mem_singleton] at he
      subst he
      exact ht
  · exact ⟨fun h0 => absurd h0 ht, h2, h3⟩
  · exact ⟨fun h0 => absurd h0 (cleanToken_of_match_ne_nil _ loc hf), rfl, h3⟩
  · refine ⟨fun _ => rfl, rfl, ?_⟩
    intro e he hd
    rcases List.mem_append.mp he with he | he
    · exact h3 e he hd
    · simp only [List.mem_singleton] at he
      subst he
      simp at hd

theorem init_sound : State.init.Sound :=
  ⟨fun _ => rfl, rfl, fun e he => by simp [State.init] at he⟩

theorem run_sound (lines : List Str) : ∀ st : State, st.Sound → (run lines st).1.Sound := by
  induction lines with
  | nil => intro st hs; exact hs
  | cons l ls ih =>
    intro st hs
    unfold run
    cases h : step st l with
    | error e => exact hs
    | ok st1 => exact ih st1 (step_sound st st1 l hs h)

/-! ### Entries already appended do not matter -/

theorem step_shift (es : List Entry) (st : State) (text : Str) :
    step ⟨es ++ st.entries, st.entry⟩ text
      = (step st text).map fun s => ⟨es ++ s.entries, s.entry⟩ := by
  unfold step
  simp only
  split
  · split
    · split
      · rfl
      · simp [Except.map, List.append_assoc]
    · split <;> rfl
  · split
    · rfl
    · simp [Except.map, List.append_assoc]

theorem run_shift (es : List Entry) (lines : List Str) : ∀ st : State,
    run lines ⟨es ++ st.entries, st.entry⟩
      = (⟨es ++ (run lines st).1.entries, (run lines st).1.entry⟩, (run lines st).2) := by
  induction lines with
  | nil => intro st; rfl
  | cons l ls ih =>
    intro st
    unfold run
    rw [step_shift]
    cases h : step st l with
    | error e => rfl
    | ok st1 => exact ih st1

/-! ### Where a returned entry comes from -/

theorem step_append_spec (st st1 : State) (text : Str) (h : step st text = .ok st1)
    (hne : st1.entries ≠ st.entries) :
    st1.entry = Entry.zero ∧ ∃ e : Entry, st1.entries = st.entries ++ [e] ∧
      (ClosedBy st text e ∨ (e.Dumb = true ∧ e.Command = strings.Trim text [10])) := by
  unfold step at h
  simp only at h
  split at h
  · rename_i hg
    split at h
    · rename_i i hi
      split at h
      · simp at h
      · rename_i rc hrc
        simp only [Except.ok.injEq] at h
        subst h
        exact ⟨rfl, _, rfl, Or.inl ⟨i, rc, hg.1, (not_isSkipLine_iff _).mp hg.2, hi, hrc, rfl⟩⟩
    · split at h <;>
      · simp only [Except.ok.injEq] at h
        subst h
        exact absurd rfl hne
  · split at h
    · simp only [Except.ok.injEq] at h
      subst h
      exact absurd rfl hne
    · simp only [Except.ok.injEq] at h
      subst h
      exact ⟨rfl, _, rfl, Or.inr ⟨rfl, rfl⟩⟩

theorem step_entries_cases (st st1 : State) (text : Str) (h : step st text = .ok st1) :
    st1.entries = st.entries ∨ ∃ e : Entry, st1.entries = st.entries ++ [e] ∧
      (ClosedBy st text e ∨ e.Dumb = true) := by
  by_cases hne : st1.entries = st.entries
  · exact Or.inl hne
  · obtain ⟨-, e, he, hc⟩ := step_append_spec st st1 text h hne
    refine Or.inr ⟨e, he, ?_⟩
    rcases hc with hc | hc
    · exact Or.inl hc
    · exact Or.inr hc.1

theorem run_closed_entries (lines : List Str) : ∀ (st0 : State) (new : List Entry),
    (run lines st0).1.entries = st0.entries ++ new → ∀ e ∈ new, e.Dumb = false →
    ∃ (pre : List Str) (text : Str) (rest : List Str), lines = pre ++ text :: rest ∧
      (run pre st0).2 = none ∧ ClosedBy (run pre st0).1 text e := by
  induction lines with
  | nil =>
    intro st0 new h e he _
    simp only [run] at h
    have : new = [] := by simpa using h
    rw [this] at he
    simp at he
  | cons l ls ih =>
    intro st0 new h e he hd
    unfold run at h
    cases hs : step st0 l with
    | error err =>
      rw [hs] at h
      simp only at h
      have : new = [] := by simpa using h
      rw [this] at he
      simp at he
    | ok st1 =>
      rw [hs] at h
      simp only at h
      obtain ⟨new', hnew'⟩ := run_keeps_entries ls st1
      -- the entries appended by the first iteration, then those of the others
      have key : ∀ a : List Entry, st1.entries = st0.entries ++ a → new = a ++ new' := by
        intro a ha
        have : st0.entries ++ new = st0.entries ++ (a ++ new') := by
          rw [← h, ← hnew', ha, List.append_assoc]
        exact List.append_cancel_left this
      have later : e ∈ new' → ∃ (pre : List Str) (text : Str) (rest : List Str),
          l :: ls = pre ++ text :: rest ∧ (run pre st0).2 = none ∧
            ClosedBy (run pre st0).1 text e := by
        intro he'
        obtain ⟨pre, text, rest, hl, hr, hc⟩ := ih st1 new' hnew'.symm e he' hd
        refine ⟨l :: pre, text, rest, by rw [hl]; rfl, ?_, ?_⟩
        · simp only [run, hs]; exact hr
        · simp only [run, hs]; exact hc
      rcases step_entries_cases st0 st1 l hs with h1 | ⟨x, h1, hx⟩
      · have := key [] (by simpa using h1)
        rw [this] at he
        exact later (by simpa using he)
      · have := key [x] h1
        rw [this] at he
        rcases List.mem_append.mp he with he1 | he1
        · simp only [List.mem_singleton] at he1
          subst he1
          rcases hx with hx | hx
          · exact ⟨[], l, ls, rfl, rfl, hx⟩
          · rw [hx] at hd
            simp at hd
        · exact later he1

theorem closedBy_step (st : State) (text : Str) (e : Entry) (h : ClosedBy st text e) :
    e.token = st.entry.token ∧ e.token ≠ [] ∧ e.token <:+: strings.Trim text [10] ∧
      e.Command = st.entry.Command ∧ e.Output = st.entry.Output ∧
      step st text = .ok ⟨st.entries ++ [e], Entry.zero⟩ := by
  obtain ⟨i, rc, ht, hskip, hi, hrc, rfl⟩ := h
  refine ⟨rfl, ht, ?_, rfl, rfl, ?_⟩
  · exact (Index_isSome_iff _ _).mp (by rw [hi]; rfl)
  · have hg := (not_isSkipLine_iff (strings.Trim text [10])).mpr hskip
    unfold step
    simp only [ne_eq, ht, not_false_eq_true, hg, and_self, if_true, hi, hrc]

theorem run_snoc (xs : List Str) (x : Str) (st : State) :
    run (xs ++ [x]) st
      = match run xs st with
        | (st1, some err) => (st1, some err)
        | (st1, none) =>
          match step st1 x with
          | .error err => (st1, some err)
          | .ok st2 => (st2, none) := by
  rw [run_append]
  cases run xs st with
  | mk st1 e =>
    cases e with
    | some err => rfl
    | none =>
      simp only [run]

theorem run_token_provenance (xs : List Str) :
    (run xs State.init).2 = none → (run xs State.init).1.entry.token ≠ [] →
    ∃ (pre1 : List Str) (cmd : Str) (mid : List Str), xs = pre1 ++ cmd :: mid ∧
      InstalledBy cmd (run xs State.init).1.entry.token := by
  induction xs using List.reverseRecOn with
  | nil => intro _ h; exact absurd rfl h
  | append_singleton xs x ih =>
    rw [run_snoc]
    cases hr : run xs State.init with
    | mk st1 e =>
      rw [hr] at ih
      cases e with
      | some err => intro h; simp at h
      | none =>
        simp only
        cases hs : step st1 x with
        | error err => intro h; simp at h
        | ok st2 =>
          simp only
          intro _ hne
          rcases step_cases st1 st2 x hs with ⟨rc, -, rfl⟩ | ⟨o, ht, rfl⟩ | ⟨loc, hf, rfl⟩
            | ⟨-, rfl⟩
          · exact absurd rfl hne
          · obtain ⟨pre1, cmd, mid, hx, hi⟩ := ih rfl ht
            exact ⟨pre1, cmd, mid ++ [x], by rw [hx]; simp, hi⟩
          · exact ⟨xs, x, [], rfl, loc, hf, rfl⟩
          · exact absurd rfl hne

/-! ## The claims -/

/-! ### Lines without a signature -/

/-- C1: a sequence of lines none of which holds the signature `;`, spaces, `echo `,
five token bytes, `-$?-` is parsed without error into one passthrough entry per line,
in order: the line as command, empty output, return code 0. -/
theorem C1_lines_without_signature_pass_through (lines : List Str)
    (hnl : ∀ l ∈ lines, 10 ∉ l) (hsig : ∀ l ∈ lines, ∀ p, ¬ SignatureAt l p) :
    parse (Reader.ofLines lines)
      = (lines.map fun l => ⟨l, [], [], true, 0⟩, none) := by
  unfold parse Reader.ofLines State.init
  simp only [run_passthrough lines [] hnl hsig]
  simp [passthrough]

theorem C1_witness :
    parse (Reader.ofLines [ascii "uname -a", ascii "ls; echo done-$?-", ascii ""])
      = ([⟨ascii "uname -a", [], [], true, 0⟩, ⟨ascii "ls; echo done-$?-", [], [], true, 0⟩,
          ⟨ascii "", [], [], true, 0⟩], none) :=
  C1_lines_without_signature_pass_through
    [ascii "uname -a", ascii "ls; echo done-$?-", ascii ""] (by decide)
    (fun l hl => not_signatureAt_of_FindStringIndex_none l (by
      revert l; decide))

/-! ### A command and its closing line -/

/-- C2 (amended): for every command text `c` without newline, every token `T` of five
bytes of `[a-zA-Z0-9~_]` that contains neither `_EOT` nor `EOT_`, every `k ≥ 1` and every
`n < 2^63`, where the `;` after `c` is the leftmost place at which the signature matches,
the two lines `c; echo T-$?-` and `T-n-` are parsed without error into exactly one entry: the
trimmed `c` as command, empty output, return code `n`, not a passthrough entry. -/
theorem C2_command_and_closing_line (c T : Str) (k n : Nat) (hnl : 10 ∉ c) (hk : 1 ≤ k)
    (hlen : T.length = 5) (htok : ∀ b ∈ T, isTokenByte b = true)
    (hL : ¬ eotL <:+: T) (hR : ¬ eotR <:+: T) (hn : n < 2 ^ 63)
    (hleft : ∀ q < c.length, ¬ SignatureAt (sigLine c k T) q) :
    parse (Reader.ofLines [sigLine c k T, closeLine T n])
      = ([⟨strings.TrimSpace c, [], T, false, (n : Int)⟩], none) := by
  have h1 := step_sigLine State.init c k T rfl hnl hk hlen htok hleft
  have h2 := step_closeLine
    ⟨[], { Entry.zero with Command := strings.TrimSpace c, token := T, Dumb := false }⟩
    n hn hlen htok hL hR
  unfold parse Reader.ofLines
  simp only [run, h1]
  simp only [State.init] at h2 ⊢
  simp only [h2]
  rfl

theorem C2_witness :
    parse (Reader.ofLines [ascii "ls; echo Ab3F9-$?-", ascii "Ab3F9-0-"])
      = ([⟨ascii "ls", [], ascii "Ab3F9", false, 0⟩], none) :=
  C2_command_and_closing_line (ascii "ls") (ascii "Ab3F9") 1 0 (by decide) (by decide)
    (by decide) (by decide) (by decide) (by decide) (by norm_num)
    (leftmost_of_FindStringIndex _ 2 18 (by decide))

/-- C2 as stated fails for a token that holds `_EOT` or `EOT_`: the closing lines
`_EOTa-0-` and `aEOT_-0-` are not searched for the token and become passthrough entries of
their own. -/
theorem C2_counterexample :
    ((ascii "_EOTa").length = 5 ∧ (∀ b ∈ ascii "_EOTa", isTokenByte b = true) ∧
      parse (Reader.ofLines [ascii "ls; echo _EOTa-$?-", ascii "_EOTa-0-"])
        = ([⟨ascii "_EOTa-0-", [], ascii "_EOTa", true, 0⟩], none)) ∧
    ((ascii "aEOT_").length = 5 ∧ (∀ b ∈ ascii "aEOT_", isTokenByte b = true) ∧
      parse (Reader.ofLines [ascii "ls; echo aEOT_-$?-", ascii "aEOT_-0-"])
        = ([⟨ascii "aEOT_-0-", [], ascii "aEOT_", true, 0⟩], none)) := by
  decide

/-! ### Output lines -/

/-- C3 (amended): for a command line `c; echo T-$?-` whose token `T` contains neither
`_EOT` nor `EOT_`, output lines `L` (without newline, without `T`, none of them a skip
line) that do not begin with an empty line followed by further lines, and `n < 2^63`, the
lines `c; echo T-$?-`, `L`, `T-n-` are parsed into exactly one entry whose output is `L`
joined with newlines and whose return code is `n`. -/
theorem C3_output_lines_joined (c T : Str) (k n : Nat) (L : List Str) (hnl : 10 ∉ c)
    (hk : 1 ≤ k) (hlen : T.length = 5) (htok : ∀ b ∈ T, isTokenByte b = true)
    (hL : ¬ eotL <:+: T) (hR : ¬ eotR <:+: T) (hn : n < 2 ^ 63)
    (hleft : ∀ q < c.length, ¬ SignatureAt (sigLine c k T) q)
    (hLnl : ∀ l ∈ L, 10 ∉ l) (hLT : ∀ l ∈ L, ¬ T <:+: l) (hLskip : ∀ l ∈ L, ¬ isSkipLine l)
    (hfirst : L.head? = some [] → L.length = 1) :
    parse (Reader.ofLines (sigLine c k T :: (L ++ [closeLine T n])))
      = ([⟨strings.TrimSpace c, List.intercalate [10] L, T, false, (n : Int)⟩], none) := by
  have hne : T ≠ [] := by intro h; rw [h] at hlen; simp at hlen
  have h1 := step_sigLine State.init c k T rfl hnl hk hlen htok hleft
  have h2 := run_output_lines L ⟨[], ⟨strings.TrimSpace c, [], T, false, 0⟩⟩
    hne hLnl hLT hLskip
  have h3 := step_closeLine
    ⟨[], ⟨strings.TrimSpace c, L.foldl appendOutput [], T, false, 0⟩⟩ n hn hlen htok hL hR
  have hrun : run (sigLine c k T :: (L ++ [closeLine T n])) State.init
      = (⟨[⟨strings.TrimSpace c, List.intercalate [10] L, T, false, (n : Int)⟩], Entry.zero⟩,
          none) := by
    rw [run, h1]
    show run (L ++ [closeLine T n]) ⟨[], ⟨strings.TrimSpace c, [], T, false, 0⟩⟩ = _
    rw [run_append, h2]
    show run [closeLine T n] ⟨[], ⟨strings.TrimSpace c, L.foldl appendOutput [], T, false, 0⟩⟩
      = _
    rw [run, h3, foldl_appendOutput_nil L hfirst]
    rfl
  unfold parse Reader.ofLines
  rw [hrun]

theorem C3_witness :
    parse (Reader.ofLines
        [ascii "cat f; echo Xy12z-$?-", ascii "line one", ascii "line two", ascii "Xy12z-2-"])
      = ([⟨ascii "cat f", ascii "line one\nline two", ascii "Xy12z", false, 2⟩], none) :=
  C3_output_lines_joined (ascii "cat f") (ascii "Xy12z") 1 2
    [ascii "line one", ascii "line two"] (by decide) (by decide) (by decide) (by decide)
    (by decide) (by decide) (by norm_num) (leftmost_of_FindStringIndex _ 5 21 (by decide))
    (by decide) (by decide) (by decide) (by decide)

/-- C3 as stated fails in two ways: after an empty first output line the next line
replaces the output instead of being appended after a newline, and a token that holds
`_EOT` or `EOT_` is never found on its closing line. -/
theorem C3_counterexample :
    (parse (Reader.ofLines
        [ascii "cat f; echo Xy12z-$?-", ascii "", ascii "x", ascii "Xy12z-2-"])
      = ([⟨ascii "cat f", ascii "x", ascii "Xy12z", false, 2⟩], none)
      ∧ List.intercalate [10] [ascii "", ascii "x"] = ascii "\nx") ∧
    parse (Reader.ofLines [ascii "cat f; echo _EOTa-$?-", ascii "line one", ascii "_EOTa-2-"])
      = ([⟨ascii "_EOTa-2-", ascii "line one", ascii "_EOTa", true, 0⟩], none) ∧
    parse (Reader.ofLines [ascii "cat f; echo aEOT_-$?-", ascii "line one", ascii "aEOT_-2-"])
      = ([⟨ascii "aEOT_-2-", ascii "line one", ascii "aEOT_", true, 0⟩], none) := by
  decide

/-! ### Skip lines -/

/-- C4 (amended): while a sentinel is open, a line `X` that begins with `>` or contains
`_EOT` or `EOT_` is not searched for the token, even if it holds the token, and is handled
like a line read while no sentinel is open. If `X` holds no signature, a passthrough entry
with `X` as command is emitted at once, the entry in progress is abandoned and the parser
is back in its seek state, so that a following line `T-n-` does not close anything and
becomes a passthrough entry too. If `X` holds a signature, no entry is emitted and the
command and token of `X` replace those of the entry in progress. -/
theorem C4_skip_line_while_sentinel_open (st : State) (X : Str)
    (_hopen : st.entry.token ≠ []) (hnl : 10 ∉ X) (hskip : isSkipLine X) :
    ((∀ q, ¬ SignatureAt X q) →
      ∃ p : Entry, p.Command = X ∧ p.Dumb = true ∧
        step st X = .ok ⟨st.entries ++ [p], Entry.zero⟩ ∧
        ∀ n, (∀ b ∈ st.entry.token, isTokenByte b = true) →
          run [X, closeLine st.entry.token n] st
            = (⟨st.entries ++ [p] ++ [passthrough (closeLine st.entry.token n)], Entry.zero⟩,
                none)) ∧
    (∀ loc, FindStringIndex X = some loc →
      ∃ e : Entry, e.Command = strings.TrimSpace (X.take loc.1) ∧
        e.token = cleanToken ((X.take (loc.2 - 4)).drop loc.1) ∧ e.Dumb = false ∧
        step st X = .ok ⟨st.entries, e⟩) := by
  have hs := step_skip_or_seek st X hnl (Or.inr hskip)
  constructor
  · intro hno
    have hf := FindStringIndex_none X hno
    rw [hf] at hs
    refine ⟨{ st.entry with Command := X, Dumb := true }, rfl, rfl, hs, ?_⟩
    intro n htok
    have hc := step_seek_none (st.entries ++ [{ st.entry with Command := X, Dumb := true }])
      (closeLine st.entry.token n)
      (by
        rw [Trim_newline_of_not_mem _ (closeLine_no_newline _ n htok)]
        exact FindStringIndex_none _
          (not_signatureAt_of_no_semicolon _ (closeLine_no_semicolon _ n htok)))
    rw [Trim_newline_of_not_mem _ (closeLine_no_newline _ n htok)] at hc
    rw [run, hs]
    simp only [run, hc]
  · intro loc hf
    rw [hf] at hs
    exact ⟨_, rfl, rfl, rfl, hs⟩

theorem C4_witness :
    ∃ p : Entry, p.Command = ascii "> x" ∧ p.Dumb = true ∧
      run [ascii "> x", ascii "Ab3F9-0-"] ⟨[], ⟨ascii "ls", [], ascii "Ab3F9", false, 0⟩⟩
        = (⟨[p, passthrough (ascii "Ab3F9-0-")], Entry.zero⟩, none) := by
  obtain ⟨p, h1, h2, -, h4⟩ :=
    (C4_skip_line_while_sentinel_open ⟨[], ⟨ascii "ls", [], ascii "Ab3F9", false, 0⟩⟩
      (ascii "> x") (by decide) (by decide) (by decide)).1
      (not_signatureAt_of_FindStringIndex_none _ (by decide))
  exact ⟨p, h1, h2, h4 0 (by decide)⟩

/-- C4 as stated fails: with the sentinel `Ab3F9` open, the line `> x` is not added to
the output of `ls`; it is emitted as an entry of its own, the entry for `ls` is never
closed, and the later line `Ab3F9-0-` is emitted as one more passthrough entry. -/
theorem C4_counterexample :
    parse (Reader.ofLines [ascii "ls; echo Ab3F9-$?-", ascii "> x", ascii "Ab3F9-0-"])
      = ([⟨ascii "> x", [], ascii "Ab3F9", true, 0⟩, ⟨ascii "Ab3F9-0-", [], [], true, 0⟩],
          none) ∧
    parse (Reader.ofLines [ascii "ls; echo Ab3F9-$?-", ascii "> x", ascii "Ab3F9-0-"])
      ≠ ([⟨ascii "ls", ascii "> x", ascii "Ab3F9", false, 0⟩], none) := by
  decide

/-! ### Decode errors -/

/-- C5 (amended): after lines `A` that are consumed without error and leave no sentinel
open, a command line `c; echo T-$?-`, output lines `L` (without `T`, not skip lines) and a
line `B` that is not a skip line and holds `T`, if the text after the first `T` in `B`,
trimmed, is not a hyphen, an optional sign, one or more digits and a hyphen, then `parse`
returns an error, whatever lines `R` follow, and the entries are exactly those of `A`. -/
theorem C5_decode_error_aborts (A L R : List Str) (c T B : Str) (k i : Nat)
    (hA : (run A State.init).2 = none) (hopen : (run A State.init).1.entry.token = [])
    (hnl : 10 ∉ c) (hk : 1 ≤ k) (hlen : T.length = 5) (htok : ∀ b ∈ T, isTokenByte b = true)
    (hleft : ∀ q < c.length, ¬ SignatureAt (sigLine c k T) q)
    (hLnl : ∀ l ∈ L, 10 ∉ l) (hLT : ∀ l ∈ L, ¬ T <:+: l) (hLskip : ∀ l ∈ L, ¬ isSkipLine l)
    (hBnl : 10 ∉ B) (hBskip : ¬ isSkipLine B) (hi : strings.Index B T = some i)
    (hshape : ¬ SignedShape (strings.TrimSpace (B.drop (i + T.length)))) :
    (∃ err, (parse (Reader.ofLines (A ++ [sigLine c k T] ++ L ++ [B] ++ R))).2 = some err) ∧
    (parse (Reader.ofLines (A ++ [sigLine c k T] ++ L ++ [B] ++ R))).1
      = (parse (Reader.ofLines A)).1 := by
  have hne : T ≠ [] := by intro h; rw [h] at hlen; simp at hlen
  obtain ⟨err, herr⟩ := returnCode_error_of_not_shape _ hshape
  have hstep := step_await_error
    ⟨(run A State.init).1.entries, ⟨strings.TrimSpace c,
      L.foldl appendOutput (run A State.init).1.entry.Output, T, false,
      (run A State.init).1.entry.ReturnCode⟩⟩ B i err hBnl hne hBskip hi herr
  have hrun : run (A ++ [sigLine c k T] ++ L ++ [B] ++ R) State.init
      = (⟨(run A State.init).1.entries, ⟨strings.TrimSpace c,
          L.foldl appendOutput (run A State.init).1.entry.Output, T, false,
          (run A State.init).1.entry.ReturnCode⟩⟩, some err) := by
    have e : A ++ [sigLine c k T] ++ L ++ [B] ++ R = A ++ (sigLine c k T :: (L ++ (B :: R))) := by
      simp
    rw [e, run_after A _ hA,
      run_sigLine_output _ c T k L hopen hnl hk hlen htok hleft hLnl hLT hLskip (B :: R),
      run, hstep]
  rw [parse_ofLines_entries A]
  unfold parse Reader.ofLines
  rw [hrun]
  exact ⟨⟨err, rfl⟩, rfl⟩

theorem C5_witness :
    (∃ err, (parse (Reader.ofLines [ascii "uname", ascii "ls; echo Ab3F9-$?-", ascii "out",
        ascii "Ab3F9-notanumber-", ascii "next"])).2 = some err) ∧
    (parse (Reader.ofLines [ascii "uname", ascii "ls; echo Ab3F9-$?-", ascii "out",
        ascii "Ab3F9-notanumber-", ascii "next"])).1
      = (parse (Reader.ofLines [ascii "uname"])).1 :=
  C5_decode_error_aborts [ascii "uname"] [ascii "out"] [ascii "next"] (ascii "ls")
    (ascii "Ab3F9") (ascii "Ab3F9-notanumber-") 1 0 (by decide) (by decide) (by decide)
    (by decide) (by decide) (by decide) (leftmost_of_FindStringIndex _ 2 18 (by decide))
    (by decide) (by decide) (by decide) (by decide) (by decide) (by decide)
    (not_signedShape_of_second 45 110 _ (by decide) (by decide) (by decide))

/-- C5 as stated fails when the text after the token carries a sign: `--5-` is not
`-<digits>-`, yet it is decoded as `-5` and the entry is closed without error. -/
theorem C5_counterexample :
    ¬ DigitsShape (ascii "--5-") ∧
    parse (Reader.ofLines [ascii "ls; echo Ab3F9-$?-", ascii "Ab3F9--5-"])
      = ([⟨ascii "ls", [], ascii "Ab3F9", false, -5⟩], none) :=
  ⟨not_digitsShape_of_second 45 45 _ (by decide), by decide⟩

/-! ### End of input -/

/-- C6: after lines `A` that are consumed without error and leave no sentinel open, a
command line `c; echo T-$?-` (with any text `s` after `-$?-`) followed by lines `L` that
neither contain `T` nor are skip lines ends the input with the sentinel still open: no
error is returned and the entries are exactly those of `A`; the entry in progress is not
among them. -/
theorem C6_unclosed_entry_dropped (A L : List Str) (c T s : Str) (k : Nat)
    (hA : (run A State.init).2 = none) (hopen : (run A State.init).1.entry.token = [])
    (hnl : 10 ∉ c) (hsnl : 10 ∉ s) (hk : 1 ≤ k) (hlen : T.length = 5)
    (htok : ∀ b ∈ T, isTokenByte b = true)
    (hleft : ∀ q < c.length, ¬ SignatureAt (sigLine c k T ++ s) q)
    (hLnl : ∀ l ∈ L, 10 ∉ l) (hLT : ∀ l ∈ L, ¬ T <:+: l) (hLskip : ∀ l ∈ L, ¬ isSkipLine l) :
    parse (Reader.ofLines (A ++ [sigLine c k T ++ s] ++ L))
      = ((parse (Reader.ofLines A)).1, none) := by
  obtain ⟨e, he⟩ := run_sigLine_any_output (run A State.init).1 c T s k L hopen hnl hsnl hk hlen
    htok hleft hLnl hLT hLskip
  have hrun : run (A ++ [sigLine c k T ++ s] ++ L) State.init
      = (⟨(run A State.init).1.entries, e⟩, none) := by
    have e1 : A ++ [sigLine c k T ++ s] ++ L = A ++ ((sigLine c k T ++ s) :: L) := by simp
    rw [e1, run_after A _ hA, he]
  rw [parse_ofLines_entries]
  unfold parse Reader.ofLines
  rw [hrun]

theorem C6_witness :
    parse (Reader.ofLines [ascii "uname", ascii "ls; echo Ab3F9-$?-", ascii "bin", ascii "etc"])
      = ((parse (Reader.ofLines [ascii "uname"])).1, none) :=
  C6_unclosed_entry_dropped [ascii "uname"] [ascii "bin", ascii "etc"] (ascii "ls")
    (ascii "Ab3F9") [] 1 (by decide) (by decide) (by decide) (by decide) (by decide) (by decide)
    (by decide) (leftmost_of_FindStringIndex _ 2 18 (by decide)) (by decide) (by decide)
    (by decide)

/-! ### Text after the exit-status substitution -/

/-- C7 fails on the code: with one character after `-$?-` the token installed is
`Ab3F9-` and not `Ab3F9`, and the closing line `Ab3F9-0-` then yields a decode error
instead of an entry with return code 0. -/
theorem C7_trailing_characters_corrupt_token :
    step State.init (ascii "ls; echo Ab3F9-$?-x")
      = .ok ⟨[], ⟨ascii "ls", [], ascii "Ab3F9-", false, 0⟩⟩ ∧
    parse (Reader.ofLines [ascii "ls; echo Ab3F9-$?-x", ascii "Ab3F9-0-"])
      = ([], some Error.invalidReturnCodeString) ∧
    parse (Reader.ofLines [ascii "ls; echo Ab3F9-$?- # list", ascii "Ab3F9-0-"])
      = ([], none) :=
  ⟨by rfl, by decide, by decide⟩

/-! ### Return codes -/

/-- C8 (amended): `returnCode` returns an error for every string that is not a hyphen,
an optional sign `+` or `-`, one or more decimal digits and a hyphen. -/
theorem C8_returnCode_rejects_other_shapes (str : Str) (h : ¬ SignedShape str) :
    ∃ err, returnCode str = .error err :=
  returnCode_error_of_not_shape str h

theorem C8_witness : ∃ err, returnCode (ascii "-notanumber-") = .error err :=
  C8_returnCode_rejects_other_shapes (ascii "-notanumber-")
    (not_signedShape_of_second 45 110 _ (by decide) (by decide) (by decide))

/-- C8 as stated fails on a signed number: `--5-` and `-+5-` are not `-<digits>-`, yet
`returnCode` decodes them as `-5` and `5`. -/
theorem C8_counterexample :
    (¬ DigitsShape (ascii "--5-") ∧ returnCode (ascii "--5-") = .ok (-5)) ∧
    (¬ DigitsShape (ascii "-+5-") ∧ returnCode (ascii "-+5-") = .ok 5) :=
  ⟨⟨not_digitsShape_of_second 45 45 _ (by decide), by rfl⟩,
   ⟨not_digitsShape_of_second 45 43 _ (by decide), by rfl⟩⟩

/-- C9: for every natural number `n < 2^63` and every string of decimal digits that
denotes `n` (leading zeros allowed), `returnCode` of hyphen, digits, hyphen is `n`, with
no error. -/
theorem C9_returnCode_decodes_base10 (n : Nat) (ds : Str) (hn : n < 2 ^ 63) (hne : ds ≠ [])
    (hd : ∀ d ∈ ds, isDigit d) (hv : decimalValue ds = n) :
    returnCode ([45] ++ ds ++ [45]) = .ok (n : Int) := by
  subst hv
  exact returnCode_digits ds hne hd hn

theorem C9_witness :
    returnCode ([45] ++ ascii "0042" ++ [45]) = .ok (42 : Int) :=
  C9_returnCode_decodes_base10 42 (ascii "0042") (by norm_num) (by decide)
    (by decide) (by decide)

/-! ### Passthrough entries -/

/-- C10 fails on the code: a skip line read while a sentinel is open is emitted as a
passthrough entry that still carries the output gathered so far. -/
theorem C10_passthrough_entry_with_output :
    parse (Reader.ofLines [ascii "ls; echo Ab3F9-$?-", ascii "out", ascii "> x"])
      = ([⟨ascii "> x", ascii "out", ascii "Ab3F9", true, 0⟩], none) := by
  decide

/-! ### A single pass -/

/-- C11: for all line sequences `xs` and `ys`, the entries of `parse xs` are an initial
segment of the entries of `parse (xs ++ ys)`, whether or not either call returns an error:
later lines never change, reorder or remove entries already produced. -/
theorem C11_entries_of_prefix_are_prefix (xs ys : List Str) :
    (parse (Reader.ofLines xs)).1 <+: (parse (Reader.ofLines (xs ++ ys))).1 := by
  rw [parse_ofLines_entries, parse_ofLines_entries, run_append]
  cases h : run xs State.init with
  | mk st1 e =>
    cases e with
    | some err => exact List.prefix_refl _
    | none => exact run_keeps_entries ys st1

/-! ### After an entry is closed -/

/-- C12: for all lines `A` that are consumed without error and leave no sentinel open, and
all lines `B`, the entries of `parse (A ++ B)` are those of `parse A` followed by those of
`parse B`, and `parse (A ++ B)` returns the error that `parse B` returns, if any. -/
theorem C12_closed_parser_starts_afresh (A B : List Str)
    (hA : (run A State.init).2 = none) (hopen : (run A State.init).1.entry.token = []) :
    (parse (Reader.ofLines (A ++ B))).1
      = (parse (Reader.ofLines A)).1 ++ (parse (Reader.ofLines B)).1 ∧
    (parse (Reader.ofLines (A ++ B))).2 = (parse (Reader.ofLines B)).2 := by
  have hz : (run A State.init).1.entry = Entry.zero :=
    (run_sound A State.init init_sound).1 hopen
  have hst : (run A State.init).1
      = ⟨(run A State.init).1.entries ++ State.init.entries, State.init.entry⟩ := by
    cases hr : (run A State.init).1 with
    | mk es e =>
      rw [hr] at hz
      simp only at hz
      subst hz
      simp [State.init]
  have hrun : run (A ++ B) State.init
      = (⟨(run A State.init).1.entries ++ (run B State.init).1.entries,
          (run B State.init).1.entry⟩, (run B State.init).2) := by
    rw [run_after A B hA, hst, run_shift]
    simp [State.init]
  rw [parse_ofLines_entries, parse_ofLines_entries, parse_ofLines_entries, parse_ofLines_error,
    parse_ofLines_error, hrun]
  exact ⟨rfl, rfl⟩

theorem C12_witness :
    (parse (Reader.ofLines ([ascii "ls; echo Ab3F9-$?-", ascii "Ab3F9-0-"]
        ++ [ascii "id; echo Xy12z-$?-", ascii "Xy12z-oops"]))).1
      = (parse (Reader.ofLines [ascii "ls; echo Ab3F9-$?-", ascii "Ab3F9-0-"])).1
        ++ (parse (Reader.ofLines [ascii "id; echo Xy12z-$?-", ascii "Xy12z-oops"])).1 ∧
    (parse (Reader.ofLines ([ascii "ls; echo Ab3F9-$?-", ascii "Ab3F9-0-"]
        ++ [ascii "id; echo Xy12z-$?-", ascii "Xy12z-oops"]))).2
      = (parse (Reader.ofLines [ascii "id; echo Xy12z-$?-", ascii "Xy12z-oops"])).2 :=
  C12_closed_parser_starts_afresh [ascii "ls; echo Ab3F9-$?-", ascii "Ab3F9-0-"]
    [ascii "id; echo Xy12z-$?-", ascii "Xy12z-oops"] (by decide) (by decide)

/-! ### The token of a command line -/

/-- C13: when no sentinel is open and the line (the scanned text as the loop sees it)
holds the signature, the token that `parse` installs, `cleanToken` of the match without
its last four bytes, is not empty, and no entry is emitted for the line. -/
theorem C13_match_installs_nonempty_token (st : State) (text line : Str)
    (hline : strings.Trim text [10] = line) (hseek : st.entry.token = [])
    (hsig : ∃ p, SignatureAt line p) :
    ∃ (loc : Nat × Nat) (e : Entry), FindStringIndex line = some loc ∧
      step st text = .ok ⟨st.entries, e⟩ ∧
      e.token = cleanToken ((line.take (loc.2 - 4)).drop loc.1) ∧ e.token ≠ [] := by
  obtain ⟨p, hp⟩ := hsig
  have hsome := FindStringIndex_isSome_of_sigHere (line.take p) (line.drop p) hp
  rw [List.take_append_drop] at hsome
  obtain ⟨loc, hf⟩ := Option.isSome_iff_exists.mp hsome
  refine ⟨loc, { st.entry with
    Command := strings.TrimSpace (line.take loc.1),
    token := cleanToken ((line.take (loc.2 - 4)).drop loc.1), Dumb := false }, hf, ?_, rfl,
    cleanToken_of_match_ne_nil line loc hf⟩
  unfold step
  simp only [hline, hseek, ne_eq, not_true_eq_false, false_and, if_false, hf]

theorem C13_witness :
    ∃ (loc : Nat × Nat) (e : Entry),
      FindStringIndex (ascii "ls -l;  echo Gi8yV-$?- # done") = some loc ∧
      step State.init (ascii "ls -l;  echo Gi8yV-$?- # done") = .ok ⟨[], e⟩ ∧
      e.token = cleanToken
        (((ascii "ls -l;  echo Gi8yV-$?- # done").take (loc.2 - 4)).drop loc.1) ∧
      e.token ≠ [] :=
  C13_match_installs_nonempty_token State.init (ascii "ls -l;  echo Gi8yV-$?- # done")
    (ascii "ls -l;  echo Gi8yV-$?- # done") (by decide) (by decide)
    ⟨5, 2, ascii "Gi8yV", ascii " # done", by decide, by decide, by decide, by decide⟩

/-! ### `cleanToken` on a match -/

/-- C14: for every token `T` of five bytes of `[a-zA-Z0-9~_]`, `j ≥ 1` semicolons and
`k ≥ 1` spaces, `cleanToken` of the semicolons, the spaces, `echo ` and `T` is `T`. -/
theorem C14_cleanToken_returns_token (T : Str) (j k : Nat) (_hj : 1 ≤ j) (_hk : 1 ≤ k)
    (hlen : T.length = 5) (htok : ∀ b ∈ T, isTokenByte b = true) :
    cleanToken (List.replicate j 59 ++ List.replicate k 32 ++ echoSp ++ T) = T := by
  have e : List.replicate j 59 ++ List.replicate k 32 ++ echoSp ++ T
      = List.replicate j 59 ++ (List.replicate k 32 ++ (echoSp ++ T)) := by simp
  rw [e]
  exact cleanToken_signature j k T hlen htok

theorem C14_witness : cleanToken (ascii ";;   echo Gi8yV") = ascii "Gi8yV" :=
  C14_cleanToken_returns_token (ascii "Gi8yV") 2 3 (by decide) (by decide) (by decide)
    (by decide)

/-! ### The token field of the entries -/

/-- C15 (amended): the token is cleared in the state of the parser, not in the entries it
returns. Whenever an iteration appends an entry, the entry in progress is reset to the zero
value, whose token is empty. Every returned entry `e` that is not a passthrough entry was
closed by a line `text` of the input, read without error after the lines
`pre1 ++ cmd :: mid`: the token of `e` is the sentinel that was open in the parser when
`text` was read, it was installed by the command line `cmd`, it is not empty, it occurs in
`text`, and the iteration on `text` appended `e`, which is the entry in progress with only
the return code set. -/
theorem C15_token_cleared_in_state_only (lines : List Str) :
    (∀ e ∈ (parse (Reader.ofLines lines)).1, e.Dumb = false →
      ∃ (pre1 : List Str) (cmd : Str) (mid : List Str) (text : Str) (rest : List Str),
        lines = (pre1 ++ cmd :: mid) ++ text :: rest ∧
        (run (pre1 ++ cmd :: mid) State.init).2 = none ∧
        InstalledBy cmd e.token ∧
        e.token = (run (pre1 ++ cmd :: mid) State.init).1.entry.token ∧
        e.token ≠ [] ∧ e.token <:+: strings.Trim text [10] ∧
        ClosedBy (run (pre1 ++ cmd :: mid) State.init).1 text e ∧
        step (run (pre1 ++ cmd :: mid) State.init).1 text
          = .ok ⟨(run (pre1 ++ cmd :: mid) State.init).1.entries ++ [e], Entry.zero⟩) ∧
    (∀ (st st1 : State) (text : Str), step st text = .ok st1 → st1.entries ≠ st.entries →
      st1.entry = Entry.zero ∧ st1.entry.token = []) := by
  constructor
  · intro e he hd
    rw [parse_ofLines_entries] at he
    obtain ⟨pre, text, rest, hl, hr, hc⟩ := run_closed_entries lines State.init
      (run lines State.init).1.entries (by simp [State.init]) e he hd
    obtain ⟨h1, h2, h3, -, -, h6⟩ := closedBy_step _ text e hc
    obtain ⟨pre1, cmd, mid, hp, hi⟩ := run_token_provenance pre hr (by rw [← h1]; exact h2)
    subst hp
    rw [← h1] at hi
    exact ⟨pre1, cmd, mid, text, rest, hl, hr, hi, h1, h2, h3, hc, h6⟩
  · intro st st1 text h hne
    rcases step_cases st st1 text h with ⟨rc, -, rfl⟩ | ⟨o, -, rfl⟩ | ⟨loc, -, rfl⟩ | ⟨-, rfl⟩
    · exact ⟨rfl, rfl⟩
    · exact absurd rfl hne
    · exact absurd rfl hne
    · exact ⟨rfl, rfl⟩

/-- C15 as stated fails: the entry returned for `id` still holds its token `Qw_7~`. -/
theorem C15_counterexample :
    parse (Reader.ofLines [ascii "id; echo Qw_7~-$?-", ascii "uid=0(root)", ascii "Qw_7~-0-"])
      = ([⟨ascii "id", ascii "uid=0(root)", ascii "Qw_7~", false, 0⟩], none) ∧
    ¬ ∀ e ∈ (parse (Reader.ofLines
        [ascii "id; echo Qw_7~-$?-", ascii "uid=0(root)", ascii "Qw_7~-0-"])).1, e.token = [] := by
  decide

/-! ### Text before the token on the closing line -/

/-- C16: with an entry open (command `cmd`, output `O`, token `T`), a line made of a
prefix `p`, the token, a hyphen, the decimal rendering of `n < 2^63` and a hyphen, where
`T` occurs in `p ++ T` only at the end and the line is not a skip line, closes the entry
with return code `n`; command and output are unchanged, and `p` goes nowhere. -/
theorem C16_text_before_token_discarded (es : List Entry) (cmd O T p : Str) (d : Bool)
    (rc : Int) (n : Nat) (hopen : T ≠ []) (hnlp : 10 ∉ p) (hnlT : 10 ∉ T)
    (hfirst : ∀ j < p.length, ¬ T <+: (p ++ T).drop j)
    (hskip : ¬ isSkipLine (p ++ T ++ 45 :: (decimal n ++ [45]))) (hn : n < 2 ^ 63) :
    step ⟨es, ⟨cmd, O, T, d, rc⟩⟩ (p ++ T ++ 45 :: (decimal n ++ [45]))
      = .ok ⟨es ++ [⟨cmd, O, T, d, (n : Int)⟩], Entry.zero⟩ := by
  have hnl : 10 ∉ p ++ T ++ 45 :: (decimal n ++ [45]) := by
    have h2 : 10 ∉ decimal n := fun h => by
      have := decimal_mem_isDigit n 10 h
      unfold isDigit at this
      omega
    simp [hnlp, hnlT, h2]
  have hi := Index_append_first p T (45 :: (decimal n ++ [45])) hfirst
  have hrc : returnCode (strings.TrimSpace
      ((p ++ T ++ 45 :: (decimal n ++ [45])).drop (p.length + T.length))) = .ok (n : Int) := by
    have e : (p ++ T ++ 45 :: (decimal n ++ [45])).drop (p.length + T.length)
        = 45 :: (decimal n ++ [45]) := by
      rw [← List.length_append, List.drop_left]
    rw [e, TrimSpace_of_plain_ends (45 :: (decimal n ++ [45])) (decimal n ++ [45])
      (45 :: decimal n) 45 45 rfl (by simp) (by decide) (by decide)]
    exact returnCode_decimal n hn
  exact step_await_close ⟨es, ⟨cmd, O, T, d, rc⟩⟩ _ p.length n hnl hopen hskip hi hrc

theorem C16_witness :
    step ⟨[], ⟨ascii "ls", ascii "bin", ascii "Ab3F9", false, 0⟩⟩ (ascii "# Ab3F9-7-")
      = .ok ⟨[⟨ascii "ls", ascii "bin", ascii "Ab3F9", false, 7⟩], Entry.zero⟩ :=
  C16_text_before_token_discarded [] (ascii "ls") (ascii "bin") (ascii "Ab3F9") (ascii "# ")
    false 0 7 (by decide) (by decide) (by decide) (by decide) (by decide) (by norm_num)

/-! ### The fragment of a URL -/

/-- C17: for every string `url`, `cleanFragment url` is a prefix of `url`; it is `url`
itself when `url` holds no `#` or begins with `#`; otherwise it is the part of `url` before
the first `#` and holds no `#`. Hence `cleanFragment` is idempotent. -/
theorem C17_cleanFragment_prefix_idempotent (url : Str) :
    cleanFragment url <+: url ∧
    (35 ∉ url → cleanFragment url = url) ∧
    (url.head? = some 35 → cleanFragment url = url) ∧
    (35 ∈ url → url.head? ≠ some 35 →
      35 ∉ cleanFragment url ∧ ∃ rest, url = cleanFragment url ++ 35 :: rest) ∧
    cleanFragment (cleanFragment url) = cleanFragment url := by
  have hno : ∀ u : Str, 35 ∉ u → cleanFragment u = u := by
    intro u hu
    rw [cleanFragment_eq]
    simp [hu]
  by_cases hc : 35 ∈ url ∧ url.head? ≠ some 35
  · have he : cleanFragment url = url.takeWhile (· != 35) := by
      rw [cleanFragment_eq, if_pos hc]
    have hnot : 35 ∉ cleanFragment url := by
      rw [he]; exact not_mem_takeWhile_ne url 35
    obtain ⟨rest, hr⟩ := takeWhile_ne_append url 35 hc.1
    refine ⟨?_, fun h => absurd hc.1 h, fun h => absurd h hc.2, ?_, hno _ hnot⟩
    · rw [he]; exact ⟨35 :: rest, hr.symm⟩
    · intro _ _
      exact ⟨hnot, rest, by rw [he]; exact hr⟩
  · have he : cleanFragment url = url := by
      rw [cleanFragment_eq, if_neg hc]
    refine ⟨by rw [he], fun _ => he, fun _ => he, ?_, by rw [he, he]⟩
    intro h1 h2
    exact absurd ⟨h1, h2⟩ hc

end OpenqaSerial
